import Mathlib

/-!
Verification of the bonsai-lang front end: the parser (src/parser.rs), the
AST and IR data model (src/ast.rs, src/ir.rs), the AST-to-IR lowering pass
(src/irgen.rs), and the arithmetic semantics of the code selected by the
backend (src/codegen.rs, per the section 6 contract).

Arenas are append-only node tables; an id is the index at which the node
was allocated. The rust-peg precedence machinery in src/parser.rs compiles
to a two-level recursive descent (expr folds terms with + and -, term folds
factors with * and /); the wrapper arm of the precedence block allocates
every produced node kind into the arena shared through a RefCell. The
embedding makes the arena state explicit and uses fuel for the recursion;
fuel exhaustion is a separate outcome, shown unreachable where needed.
The .unwrap() on the integer-literal conversion in src/parser.rs line 22
panics when the literal exceeds the i64 range; the embedding keeps that
as the distinct outcome PRes.panic, which aborts without backtracking.
-/

namespace Bonsai

namespace ast

inductive LitKind
| IntLit (v : Int)
deriving DecidableEq, Repr

inductive BiOpKind
| Add
| Sub
| Mul
| Div
deriving DecidableEq, Repr

abbrev Id := Nat

inductive NodeKind
| Lit (l : LitKind)
| Paren (inner : Id)
| BiOp (k : BiOpKind) (l r : Id)
deriving DecidableEq, Repr

structure Node where
  kind : NodeKind
deriving DecidableEq, Repr

abbrev Arena := List Node

def alloc (a : Arena) (n : Node) : Arena × Id := (a ++ [n], a.length)

end ast

namespace ir

inductive OpKind
| IAdd
| ISub
| IMul
| IDiv
deriving DecidableEq, Repr

abbrev Id := Nat

inductive Kind
| IntValue (v : Int)
| Op (k : OpKind) (args : List Id)
deriving DecidableEq, Repr

structure Node where
  kind : Kind
deriving DecidableEq, Repr

abbrev Arena := List Node

def alloc (a : Arena) (n : Node) : Arena × Id := (a ++ [n], a.length)

end ir

namespace parser

/-- Outcome of a parser rule: success, PEG match failure (backtrackable),
a Rust panic (aborts the process, never backtracked), or fuel exhaustion
(models unbounded recursion of the Rust call stack). -/
inductive PRes (α : Type)
| ok (a : α)
| fail
| panic
| fuelOut
deriving DecidableEq, Repr

/-- The whitespace characters of the rule named by an underscore in
src/parser.rs line 14. -/
def isWs (c : Char) : Bool := c = ' ' || c = '\t' || c = '\r' || c = '\n'

def isDigit (c : Char) : Bool := '0' ≤ c && c ≤ '9'

/-- Value of a run of ASCII digit characters, as read by i64::from_str. -/
def digitsVal (ds : List Char) : Nat :=
  ds.foldl (fun acc c => 10 * acc + (c.toNat - 48)) 0

/-- Largest value i64::from_str accepts for an unsigned digit string. -/
def i64Max : Nat := 9223372036854775807

/-- Every run of digits inside the input (each digit scan the parser can
perform starts at some suffix of the input) has a value accepted by
i64::from_str. Inputs violating this are exactly those on which the
.unwrap() in int_lit can fire. -/
def LitsInRange (l : List Char) : Prop :=
  ∀ t ∈ l.tails, digitsVal (t.takeWhile isDigit) ≤ i64Max

abbrev RuleRes := PRes (ast.Id × List Char × ast.Arena)

mutual

/-- The atom level of the precedence block in src/parser.rs lines 41 and 43:
an integer literal (rule int_lit, lines 21 to 23, including the .unwrap()
that panics on i64 overflow) or a parenthesized expression. The wrapper
arm (lines 26 to 33) allocates the produced node kind into the arena. -/
def factor : Nat → List Char → ast.Arena → RuleRes
  | 0, _, _ => .fuelOut
  | f+1, l, st =>
    match l.dropWhile isWs with
    | [] => .fail
    | c :: r =>
      if isDigit c then
        let l1 := (l.dropWhile isWs)
        let v := digitsVal (l1.takeWhile isDigit)
        if v ≤ i64Max then
          let p := ast.alloc st ⟨.Lit (.IntLit (Int.ofNat v))⟩
          .ok (p.2, l1.dropWhile isDigit, p.1)
        else .panic
      else if c = '(' then
        match expr f r st with
        | .ok (e, r1, st1) =>
          match r1.dropWhile isWs with
          | ')' :: r2 =>
            let p := ast.alloc st1 ⟨.Paren e⟩
            .ok (p.2, r2, p.1)
          | _ => .fail
        | .fail => .fail
        | .panic => .panic
        | .fuelOut => .fuelOut
      else .fail

/-- The * and / level of the precedence block (lines 38 and 39): a factor
followed by a left-associative fold of further factors. -/
def term : Nat → List Char → ast.Arena → RuleRes
  | 0, _, _ => .fuelOut
  | f+1, l, st =>
    match factor f l st with
    | .ok (x, r, st1) => termLoop f x r st1
    | .fail => .fail
    | .panic => .panic
    | .fuelOut => .fuelOut

/-- The iteration of the * and / level: on seeing an operator, parse the
next factor and allocate the BiOp node; if the operand is missing, the
PEG backtracks, leaving the operator unconsumed. -/
def termLoop : Nat → ast.Id → List Char → ast.Arena → RuleRes
  | 0, _, _, _ => .fuelOut
  | f+1, x, l, st =>
    match l.dropWhile isWs with
    | '*' :: r =>
      match factor f r st with
      | .ok (y, r1, st1) =>
        let p := ast.alloc st1 ⟨.BiOp .Mul x y⟩
        termLoop f p.2 r1 p.1
      | .fail => .ok (x, l, st)
      | .panic => .panic
      | .fuelOut => .fuelOut
    | '/' :: r =>
      match factor f r st with
      | .ok (y, r1, st1) =>
        let p := ast.alloc st1 ⟨.BiOp .Div x y⟩
        termLoop f p.2 r1 p.1
      | .fail => .ok (x, l, st)
      | .panic => .panic
      | .fuelOut => .fuelOut
    | _ => .ok (x, l, st)

/-- The + and - level of the precedence block (lines 35 and 36): a term
followed by a left-associative fold of further terms. -/
def expr : Nat → List Char → ast.Arena → RuleRes
  | 0, _, _ => .fuelOut
  | f+1, l, st =>
    match term f l st with
    | .ok (x, r, st1) => exprLoop f x r st1
    | .fail => .fail
    | .panic => .panic
    | .fuelOut => .fuelOut

/-- The iteration of the + and - level. -/
def exprLoop : Nat → ast.Id → List Char → ast.Arena → RuleRes
  | 0, _, _, _ => .fuelOut
  | f+1, x, l, st =>
    match l.dropWhile isWs with
    | '+' :: r =>
      match term f r st with
      | .ok (y, r1, st1) =>
        let p := ast.alloc st1 ⟨.BiOp .Add x y⟩
        exprLoop f p.2 r1 p.1
      | .fail => .ok (x, l, st)
      | .panic => .panic
      | .fuelOut => .fuelOut
    | '-' :: r =>
      match term f r st with
      | .ok (y, r1, st1) =>
        let p := ast.alloc st1 ⟨.BiOp .Sub x y⟩
        exprLoop f p.2 r1 p.1
      | .fail => .ok (x, l, st)
      | .panic => .panic
      | .fuelOut => .fuelOut
    | _ => .ok (x, l, st)

end

/-- Fuel sufficient for a character list of the given length; the parser
descends at most a constant number of calls per consumed character. -/
def fuelFor (l : List Char) : Nat := 4 * l.length + 8

/-- The grammar entry point (src/parser.rs line 45): an expr, trailing
whitespace, then end of input, mapped by parse (lines 49 to 56) to the
pair of the final arena and the root id. -/
def parseList (l : List Char) : PRes (ast.Arena × ast.Id) :=
  match expr (fuelFor l) l [] with
  | .ok (i, r, st) => if r.dropWhile isWs = [] then .ok (st, i) else .fail
  | .fail => .fail
  | .panic => .panic
  | .fuelOut => .fuelOut

def parse (s : String) : PRes (ast.Arena × ast.Id) := parseList s.data

/-! Token-level view of the grammar, used to state whitespace
insignificance: a source string is a sequence of tokens, each preceded by
arbitrary whitespace, with trailing whitespace at the end. -/

inductive Tok
| TInt (ds : List Char)
| TPlus
| TMinus
| TStar
| TSlash
| TLP
| TRP
deriving DecidableEq, Repr

/-- The characters a token is written with. -/
def tokChars : Tok → List Char
  | .TInt ds => ds
  | .TPlus => ['+']
  | .TMinus => ['-']
  | .TStar => ['*']
  | .TSlash => ['/']
  | .TLP => ['(']
  | .TRP => [')']

/-- A token sequence written out: each token preceded by its whitespace,
then trailing whitespace. -/
def render : List (List Char × Tok) → List Char → List Char
  | [], tws => tws
  | (w, t) :: r, tws => w ++ (tokChars t ++ render r tws)

def goodTok : Tok → Bool
  | .TInt ds => !ds.isEmpty && ds.all isDigit
  | _ => true

/-- Between two adjacent integer literals the separating whitespace must
be nonempty, else rendering would merge them into a single token. -/
def sepOk : Tok → List (List Char × Tok) → Bool
  | .TInt _, (w2, .TInt _) :: _ => !w2.isEmpty
  | _, _ => true

/-- Each separator is whitespace, each token is well formed, and no two
integer literals are rendered adjacently. -/
def goodItems : List (List Char × Tok) → Bool
  | [] => true
  | (w, t) :: r => w.all isWs && goodTok t && sepOk t r && goodItems r

abbrev TokRes := PRes (ast.Id × List Tok × ast.Arena)

mutual

/-- Token-level mirror of the rule factor, with the identical fuel and
arena discipline. -/
def tFactor : Nat → List Tok → ast.Arena → TokRes
  | 0, _, _ => .fuelOut
  | f+1, ts, st =>
    match ts with
    | .TInt ds :: r =>
      if digitsVal ds ≤ i64Max then
        let p := ast.alloc st ⟨.Lit (.IntLit (Int.ofNat (digitsVal ds)))⟩
        .ok (p.2, r, p.1)
      else .panic
    | .TLP :: r =>
      match tExpr f r st with
      | .ok (e, r1, st1) =>
        match r1 with
        | .TRP :: r2 =>
          let p := ast.alloc st1 ⟨.Paren e⟩
          .ok (p.2, r2, p.1)
        | _ => .fail
      | .fail => .fail
      | .panic => .panic
      | .fuelOut => .fuelOut
    | _ => .fail

/-- Token-level mirror of the rule term. -/
def tTerm : Nat → List Tok → ast.Arena → TokRes
  | 0, _, _ => .fuelOut
  | f+1, ts, st =>
    match tFactor f ts st with
    | .ok (x, r, st1) => tTermLoop f x r st1
    | .fail => .fail
    | .panic => .panic
    | .fuelOut => .fuelOut

/-- Token-level mirror of the iteration of the * and / level. -/
def tTermLoop : Nat → ast.Id → List Tok → ast.Arena → TokRes
  | 0, _, _, _ => .fuelOut
  | f+1, x, ts, st =>
    match ts with
    | .TStar :: r =>
      match tFactor f r st with
      | .ok (y, r1, st1) =>
        let p := ast.alloc st1 ⟨.BiOp .Mul x y⟩
        tTermLoop f p.2 r1 p.1
      | .fail => .ok (x, ts, st)
      | .panic => .panic
      | .fuelOut => .fuelOut
    | .TSlash :: r =>
      match tFactor f r st with
      | .ok (y, r1, st1) =>
        let p := ast.alloc st1 ⟨.BiOp .Div x y⟩
        tTermLoop f p.2 r1 p.1
      | .fail => .ok (x, ts, st)
      | .panic => .panic
      | .fuelOut => .fuelOut
    | _ => .ok (x, ts, st)

/-- Token-level mirror of the rule expr. -/
def tExpr : Nat → List Tok → ast.Arena → TokRes
  | 0, _, _ => .fuelOut
  | f+1, ts, st =>
    match tTerm f ts st with
    | .ok (x, r, st1) => tExprLoop f x r st1
    | .fail => .fail
    | .panic => .panic
    | .fuelOut => .fuelOut

/-- Token-level mirror of the iteration of the + and - level. -/
def tExprLoop : Nat → ast.Id → List Tok → ast.Arena → TokRes
  | 0, _, _, _ => .fuelOut
  | f+1, x, ts, st =>
    match ts with
    | .TPlus :: r =>
      match tTerm f r st with
      | .ok (y, r1, st1) =>
        let p := ast.alloc st1 ⟨.BiOp .Add x y⟩
        tExprLoop f p.2 r1 p.1
      | .fail => .ok (x, ts, st)
      | .panic => .panic
      | .fuelOut => .fuelOut
    | .TMinus :: r =>
      match tTerm f r st with
      | .ok (y, r1, st1) =>
        let p := ast.alloc st1 ⟨.BiOp .Sub x y⟩
        tExprLoop f p.2 r1 p.1
      | .fail => .ok (x, ts, st)
      | .panic => .panic
      | .fuelOut => .fuelOut
    | _ => .ok (x, ts, st)

end

/-- Correspondence between the outcome of a character-level rule and its
token-level mirror: same outcome kind, same id and arena on success, and
a character remainder that is again a rendering of the token
remainder. -/
def SimRes (rc : RuleRes) (rt : TokRes) : Prop :=
  match rc, rt with
  | .ok (i, c, s), .ok (j, t, s2) =>
      i = j ∧ s = s2 ∧ ∃ its tws, goodItems its = true ∧ tws.all isWs = true ∧
        c = render its tws ∧ t = its.map Prod.snd
  | .fail, .fail => True
  | .panic, .panic => True
  | .fuelOut, .fuelOut => True
  | _, _ => False

end parser

namespace irgen

/-- Outcome of lowering: success, the dangling-id error of
src/irgen.rs line 35, or fuel exhaustion (models unbounded recursion). -/
inductive GRes (α : Type)
| ok (a : α)
| err
| fuelOut
deriving DecidableEq, Repr

/-- src/irgen.rs lines 22 to 29. In the source this returns Result but
every arm is Ok, so the embedding is total. -/
def map_biop_kind : ast.BiOpKind → ir.OpKind
  | .Add => .IAdd
  | .Sub => .ISub
  | .Mul => .IMul
  | .Div => .IDiv

/-- src/irgen.rs lines 31 to 51: look the node up in the AST arena (error
on a dangling id), then translate by case: a literal allocates IntValue,
Paren recurses transparently, BiOp lowers left then right and allocates
the mapped operator node with the two result ids in order. -/
def generate_impl : Nat → ast.Arena → ir.Arena → ast.Id → GRes (ir.Arena × ir.Id)
  | 0, _, _, _ => .fuelOut
  | f+1, a, st, root =>
    match a[root]? with
    | none => .err
    | some node =>
      match node.kind with
      | .Lit (.IntLit v) =>
        let p := ir.alloc st ⟨.IntValue v⟩
        .ok (p.1, p.2)
      | .Paren e => generate_impl f a st e
      | .BiOp k l r =>
        match generate_impl f a st l with
        | .ok (st1, li) =>
          match generate_impl f a st1 r with
          | .ok (st2, ri) =>
            let p := ir.alloc st2 ⟨.Op (map_biop_kind k) [li, ri]⟩
            .ok (p.1, p.2)
          | .err => .err
          | .fuelOut => .fuelOut
        | .err => .err
        | .fuelOut => .fuelOut

/-- src/irgen.rs lines 54 to 58: fresh IR arena, lower the root. On a
well-formed arena each recursive call strictly decreases the id, so
root + 1 units of fuel are enough. -/
def generate (a : ast.Arena) (root : ast.Id) : GRes (ir.Arena × ir.Id) :=
  generate_impl (root + 1) a [] root

end irgen

namespace codegen

/-- Reduction of an integer into the signed 64-bit range, the two's
complement semantics of the i64 values built in src/codegen.rs. -/
def wrap64 (x : Int) : Int := (x + 2 ^ 63) % 2 ^ 64 - 2 ^ 63

/-- Semantics of the single LLVM instruction selected for each operator in
src/codegen.rs lines 113 to 142: build_int_add, build_int_sub,
build_int_mul wrap; build_int_signed_div truncates toward zero and is
undefined (none) on division by zero and on overflow, per the section 6
contract. -/
def evalOp : ir.OpKind → Int → Int → Option Int
  | .IAdd, x, y => some (wrap64 (x + y))
  | .ISub, x, y => some (wrap64 (x - y))
  | .IMul, x, y => some (wrap64 (x * y))
  | .IDiv, x, y =>
    if y = 0 then none
    else if x = -(2 ^ 63) ∧ y = -1 then none
    else some (Int.tdiv x y)

/-- Evaluation of an IR node, following the recursion of
src/codegen.rs lines 100 to 146: IntValue is its constant, Op evaluates
operand 0 then operand 1 and applies the operator. -/
def eval_impl : Nat → ir.Arena → ir.Id → Option Int
  | 0, _, _ => none
  | f+1, a, i =>
    match a[i]? with
    | none => none
    | some node =>
      match node.kind with
      | .IntValue v => some v
      | .Op k args =>
        match args[0]?, args[1]? with
        | some x, some y =>
          match eval_impl f a x, eval_impl f a y with
          | some xv, some yv => evalOp k xv yv
          | _, _ => none
        | _, _ => none

def eval (a : ir.Arena) (root : ir.Id) : Option Int := eval_impl (root + 1) a root

end codegen

namespace driver

/-- The front half of compile in src/driver.rs: parse, then lower,
short-circuiting on the first failure. -/
def lowered (s : String) : irgen.GRes (ir.Arena × ir.Id) :=
  match parser.parse s with
  | .ok (a, r) => irgen.generate a r
  | _ => .err

/-- The observable behavior of the whole pipeline on one source string:
parse, lower, then evaluate the IR under the section 6 contract; none on
any failure. -/
def run (s : String) : Option Int :=
  match parser.parse s with
  | .ok (a, r) =>
    match irgen.generate a r with
    | .ok (ia, ri) => codegen.eval ia ri
    | _ => none
  | _ => none

end driver

/-! Well-formedness of arenas: every operand id stored in a node resolves
to a node of the same arena allocated strictly before the referencing
node. This is the invariant of section 3 of the spec. -/

namespace ast

/-- The ids a node refers to. -/
def nodeRefs : NodeKind → List Id
  | .Lit _ => []
  | .Paren e => [e]
  | .BiOp _ l r => [l, r]

/-- Every reference points strictly below the referencing index. -/
def WF (a : Arena) : Prop :=
  ∀ i n e, a[i]? = some n → e ∈ nodeRefs n.kind → e < i

end ast

namespace ir

/-- The ids an IR node refers to. -/
def nodeRefs : Kind → List Id
  | .IntValue _ => []
  | .Op _ args => args

/-- Every reference points strictly below the referencing index. -/
def WF (a : Arena) : Prop :=
  ∀ i n e, a[i]? = some n → e ∈ nodeRefs n.kind → e < i

end ir

/-- State evolution of one successful parser step: the arena only grows,
the returned id is in range, and well-formedness is preserved. -/
def ParserStep (st st' : ast.Arena) (i : ast.Id) : Prop :=
  (∃ ext, st' = st ++ ext) ∧ i < st'.length ∧ (ast.WF st → ast.WF st')

end Bonsai

/-! Theorems settling the claims, with their shared helper lemmas. -/

namespace Bonsai

/-- C1: the parser respects the precedence and associativity of the
grammar: + and - bind looser than * and /, all four left-associative.
Concretely, 1+2*3 parses to Add(1, Mul(2, 3)) and evaluates to 7, and
10-2-3 parses to Sub(Sub(10, 2), 3) and evaluates to 5. -/
theorem claim_c1 :
    parser.parse "1+2*3" =
      .ok ([⟨.Lit (.IntLit 1)⟩, ⟨.Lit (.IntLit 2)⟩, ⟨.Lit (.IntLit 3)⟩,
            ⟨.BiOp .Mul 1 2⟩, ⟨.BiOp .Add 0 3⟩], 4) ∧
    parser.parse "10-2-3" =
      .ok ([⟨.Lit (.IntLit 10)⟩, ⟨.Lit (.IntLit 2)⟩, ⟨.BiOp .Sub 0 1⟩,
            ⟨.Lit (.IntLit 3)⟩, ⟨.BiOp .Sub 2 3⟩], 4) ∧
    driver.run "1+2*3" = some 7 ∧
    driver.run "10-2-3" = some 5 := by
  refine ⟨by decide, by decide, by decide, by decide⟩

/-- C2: lowering maps each operator componentwise (Add to IAdd, Sub to
ISub, Mul to IMul, Div to IDiv); parsing 6 * 7 yields
BiOp(Mul, Lit 6, Lit 7) and lowering that AST yields
Op(IMul, [IntValue 6, IntValue 7]), the left operand lowered first and
the operand ids in order. -/
theorem claim_c2 :
    irgen.map_biop_kind .Add = .IAdd ∧
    irgen.map_biop_kind .Sub = .ISub ∧
    irgen.map_biop_kind .Mul = .IMul ∧
    irgen.map_biop_kind .Div = .IDiv ∧
    parser.parse "6 * 7" =
      .ok ([⟨.Lit (.IntLit 6)⟩, ⟨.Lit (.IntLit 7)⟩, ⟨.BiOp .Mul 0 1⟩], 2) ∧
    irgen.generate [⟨.Lit (.IntLit 6)⟩, ⟨.Lit (.IntLit 7)⟩, ⟨.BiOp .Mul 0 1⟩] 2 =
      .ok ([⟨.IntValue 6⟩, ⟨.IntValue 7⟩, ⟨.Op .IMul [0, 1]⟩], 2) ∧
    driver.lowered "1+2" = .ok ([⟨.IntValue 1⟩, ⟨.IntValue 2⟩, ⟨.Op .IAdd [0, 1]⟩], 2) ∧
    driver.lowered "1-2" = .ok ([⟨.IntValue 1⟩, ⟨.IntValue 2⟩, ⟨.Op .ISub [0, 1]⟩], 2) ∧
    driver.lowered "1/2" = .ok ([⟨.IntValue 1⟩, ⟨.IntValue 2⟩, ⟨.Op .IDiv [0, 1]⟩], 2) := by
  refine ⟨rfl, rfl, rfl, rfl, by decide, by decide, by decide, by decide, by decide⟩

/-- C3: Paren nodes are transparent under lowering: lowering a Paren node
is exactly lowering its inner node, allocating nothing, and the whole
front end gives identical IR for (((6*7))) and 6*7. -/
theorem claim_c3 :
    (∀ f a st e inner, a[e]? = some ⟨.Paren inner⟩ →
      irgen.generate_impl (f + 1) a st e = irgen.generate_impl f a st inner) ∧
    driver.lowered "(((6*7)))" = driver.lowered "6*7" ∧
    driver.lowered "6*7" =
      .ok ([⟨.IntValue 6⟩, ⟨.IntValue 7⟩, ⟨.Op .IMul [0, 1]⟩], 2) := by
  refine ⟨?_, by decide, by decide⟩
  intro f a st e inner h
  simp [irgen.generate_impl, h]

/-- C3 witness: the Paren equation at a concrete arena. -/
theorem claim_c3_witness :
    irgen.generate_impl 2 [⟨.Lit (.IntLit 6)⟩, ⟨.Paren 0⟩] [] 1 =
      irgen.generate_impl 1 [⟨.Lit (.IntLit 6)⟩, ⟨.Paren 0⟩] [] 0 :=
  claim_c3.1 1 [⟨.Lit (.IntLit 6)⟩, ⟨.Paren 0⟩] [] 1 0 (by decide)

/-- C4 counterexample: the claim asserts that -7/2 is accepted by the
front end, but the grammar has no negative literals and no unary minus,
so parsing -7/2 fails. -/
theorem claim_c4_cex : parser.parse "-7/2" = .fail := by decide

/-- C4 amended: 7/2 is accepted and evaluates to 3 under the section 6
semantics; IDiv itself truncates toward zero (on -7 and 2 it would give
-3); but -7/2 is rejected with a ParseError because the grammar has no
unary minus. -/
theorem claim_c4 :
    driver.run "7/2" = some 3 ∧
    codegen.evalOp .IDiv (-7) 2 = some (-3) ∧
    parser.parse "-7/2" = .fail := by
  refine ⟨by decide, by decide, by decide⟩

/-- C6 counterexample: removing the whitespace between the two integer
tokens of the source string built from 1 and 2 merges them into one
token, turning a ParseError into a successful parse, so removal of
whitespace between tokens can change whether parse succeeds. -/
theorem claim_c6_cex :
    parser.parse "1 2" = .fail ∧
    parser.parse "12" = .ok ([⟨.Lit (.IntLit 12)⟩], 0) := by
  refine ⟨by decide, by decide⟩

/-- C5 counterexample: the 20-digit literal followed by a stray + does
not match the grammar (trailing unparsed input), yet parse panics in the
literal conversion instead of returning a ParseError. -/
theorem claim_c5_cex : parser.parse "99999999999999999999+" = .panic := by decide

/-- C10: parse panics (rather than returning a ParseError) on a
syntactically well-formed literal whose value exceeds the signed 64-bit
range: the .unwrap() on the i64 conversion aborts. -/
theorem claim_c10 : parser.parse "99999999999999999999" = .panic := by decide

/-! Helper lemmas: arena extension and well-formedness along the parse. -/

theorem length_le_of_ext {st st' : ast.Arena} (h : ∃ ext, st' = st ++ ext) :
    st.length ≤ st'.length := by
  obtain ⟨ext, rfl⟩ := h
  simp

theorem length_lt_concat (a : ast.Arena) (n : ast.Node) : a.length < (a ++ [n]).length := by
  simp

theorem ParserStep.trans_of {st st1 st' : ast.Arena} {x i : ast.Id}
    (h1 : ParserStep st st1 x) (h2 : ParserStep st1 st' i) : ParserStep st st' i := by
  obtain ⟨⟨e1, rfl⟩, _, w1⟩ := h1
  obtain ⟨⟨e2, rfl⟩, hi, w2⟩ := h2
  exact ⟨⟨e1 ++ e2, by simp⟩, hi, fun h => w2 (w1 h)⟩

theorem index_lt_of_getElem? {a : ast.Arena} {i : Nat} {n : ast.Node}
    (h : a[i]? = some n) : i < a.length := by
  by_contra hc
  rw [List.getElem?_eq_none (Nat.le_of_not_lt hc)] at h
  exact absurd h (by simp)

theorem ast.WF_empty_ast : ast.WF [] := by
  intro i n e hi
  simp at hi

theorem ast.WF_alloc_ast {a : ast.Arena} {k : ast.NodeKind}
    (ha : ast.WF a) (hk : ∀ e ∈ ast.nodeRefs k, e < a.length) :
    ast.WF (a ++ [⟨k⟩]) := by
  intro i n e hi he
  rcases Nat.lt_or_ge i a.length with h | h
  · rw [List.getElem?_append_left h] at hi
    exact ha i n e hi he
  · have hi2 := index_lt_of_getElem? hi
    simp at hi2
    have : i = a.length := Nat.le_antisymm (Nat.lt_succ_iff.mp hi2) h
    subst this
    rw [List.getElem?_concat_length] at hi
    cases hi
    exact hk e he

/-- The parser maintains the arena invariant at every level: a successful
rule extends the arena, returns an id below the new length, and preserves
well-formedness. Loops additionally assume their accumulated id is in
range. One induction over fuel covers all five mutually recursive
rules. -/
theorem parser.step_inv (f : Nat) :
    (∀ l st i r st', parser.factor f l st = .ok (i, r, st') → ParserStep st st' i) ∧
    (∀ l st i r st', parser.term f l st = .ok (i, r, st') → ParserStep st st' i) ∧
    (∀ x l st i r st', x < st.length →
      parser.termLoop f x l st = .ok (i, r, st') → ParserStep st st' i) ∧
    (∀ l st i r st', parser.expr f l st = .ok (i, r, st') → ParserStep st st' i) ∧
    (∀ x l st i r st', x < st.length →
      parser.exprLoop f x l st = .ok (i, r, st') → ParserStep st st' i) := by
  induction f with
  | zero =>
    refine ⟨?_, ?_, ?_, ?_, ?_⟩ <;> intros <;> simp_all [parser.factor, parser.term,
      parser.termLoop, parser.expr, parser.exprLoop]
  | succ f ih =>
    obtain ⟨ihFactor, ihTerm, ihTermLoop, ihExpr, ihExprLoop⟩ := ih
    have stepAlloc : ∀ (st1 : ast.Arena) k, (∀ e ∈ ast.nodeRefs k, e < st1.length) →
        ParserStep st1 (st1 ++ [⟨k⟩]) st1.length := by
      intro st1 k hk
      exact ⟨⟨[⟨k⟩], rfl⟩, by simp, fun h => ast.WF_alloc_ast h hk⟩
    have hFactor : ∀ l st i r st', parser.factor (f + 1) l st = .ok (i, r, st') →
        ParserStep st st' i := by
      intro l st i r st' h
      rw [parser.factor] at h
      split at h
      · exact absurd h (by simp)
      next c r0 heq =>
        split at h
        · simp only [ast.alloc] at h
          split at h
          · simp at h
            obtain ⟨h1, _, h3⟩ := h
            subst h1; subst h3
            exact stepAlloc st _ (by simp [ast.nodeRefs])
          · exact absurd h (by simp)
        · split at h
          · -- paren case
            split at h
            next e r1 st1 heq2 =>
              have step1 := ihExpr _ _ _ _ _ heq2
              split at h
              next r2 heq3 =>
                simp only [ast.alloc] at h
                simp at h
                obtain ⟨h1, _, h3⟩ := h
                subst h1; subst h3
                refine step1.trans_of (stepAlloc st1 _ ?_)
                simp [ast.nodeRefs]
                exact step1.2.1
              · exact absurd h (by simp)
            · exact absurd h (by simp)
            · exact absurd h (by simp)
            · exact absurd h (by simp)
          · exact absurd h (by simp)
    have hTerm : ∀ l st i r st', parser.term (f + 1) l st = .ok (i, r, st') →
        ParserStep st st' i := by
      intro l st i r st' h
      rw [parser.term] at h
      split at h
      next x r0 st1 heq =>
        have step1 := ihFactor _ _ _ _ _ heq
        have step2 := ihTermLoop _ _ _ _ _ _ step1.2.1 h
        exact step1.trans_of step2
      · exact absurd h (by simp)
      · exact absurd h (by simp)
      · exact absurd h (by simp)
    have hTermLoop : ∀ x l st i r st', x < st.length →
        parser.termLoop (f + 1) x l st = .ok (i, r, st') → ParserStep st st' i := by
      intro x l st i r st' hx h
      rw [parser.termLoop] at h
      split at h
      · -- star
        split at h
        next y r1 st1 heq =>
          have step1 := ihFactor _ _ _ _ _ heq
          have hx1 : x < st1.length := Nat.lt_of_lt_of_le hx (length_le_of_ext step1.1)
          have stepA : ParserStep st1 (st1 ++ [⟨.BiOp .Mul x y⟩]) st1.length :=
            ⟨⟨_, rfl⟩, length_lt_concat st1 _, fun hw => ast.WF_alloc_ast hw (by
              simp [ast.nodeRefs]
              exact ⟨hx1, step1.2.1⟩)⟩
          simp only [ast.alloc] at h
          have step2 := ihTermLoop _ _ _ _ _ _ (length_lt_concat st1 _) h
          exact (step1.trans_of stepA).trans_of step2
        next heq =>
          simp at h
          obtain ⟨h1, _, h3⟩ := h
          subst h1; subst h3
          exact ⟨⟨[], by simp⟩, hx, fun hw => hw⟩
        · exact absurd h (by simp)
        · exact absurd h (by simp)
      · -- slash
        split at h
        next y r1 st1 heq =>
          have step1 := ihFactor _ _ _ _ _ heq
          have hx1 : x < st1.length := Nat.lt_of_lt_of_le hx (length_le_of_ext step1.1)
          have stepA : ParserStep st1 (st1 ++ [⟨.BiOp .Div x y⟩]) st1.length :=
            ⟨⟨_, rfl⟩, length_lt_concat st1 _, fun hw => ast.WF_alloc_ast hw (by
              simp [ast.nodeRefs]
              exact ⟨hx1, step1.2.1⟩)⟩
          simp only [ast.alloc] at h
          have step2 := ihTermLoop _ _ _ _ _ _ (length_lt_concat st1 _) h
          exact (step1.trans_of stepA).trans_of step2
        next heq =>
          simp at h
          obtain ⟨h1, _, h3⟩ := h
          subst h1; subst h3
          exact ⟨⟨[], by simp⟩, hx, fun hw => hw⟩
        · exact absurd h (by simp)
        · exact absurd h (by simp)
      · simp at h
        obtain ⟨h1, _, h3⟩ := h
        subst h1; subst h3
        exact ⟨⟨[], by simp⟩, hx, fun hw => hw⟩
    have hExpr : ∀ l st i r st', parser.expr (f + 1) l st = .ok (i, r, st') →
        ParserStep st st' i := by
      intro l st i r st' h
      rw [parser.expr] at h
      split at h
      next x r0 st1 heq =>
        have step1 := ihTerm _ _ _ _ _ heq
        have step2 := ihExprLoop _ _ _ _ _ _ step1.2.1 h
        exact step1.trans_of step2
      · exact absurd h (by simp)
      · exact absurd h (by simp)
      · exact absurd h (by simp)
    have hExprLoop : ∀ x l st i r st', x < st.length →
        parser.exprLoop (f + 1) x l st = .ok (i, r, st') → ParserStep st st' i := by
      intro x l st i r st' hx h
      rw [parser.exprLoop] at h
      split at h
      · split at h
        next y r1 st1 heq =>
          have step1 := ihTerm _ _ _ _ _ heq
          have hx1 : x < st1.length := Nat.lt_of_lt_of_le hx (length_le_of_ext step1.1)
          have stepA : ParserStep st1 (st1 ++ [⟨.BiOp .Add x y⟩]) st1.length :=
            ⟨⟨_, rfl⟩, length_lt_concat st1 _, fun hw => ast.WF_alloc_ast hw (by
              simp [ast.nodeRefs]
              exact ⟨hx1, step1.2.1⟩)⟩
          simp only [ast.alloc] at h
          have step2 := ihExprLoop _ _ _ _ _ _ (length_lt_concat st1 _) h
          exact (step1.trans_of stepA).trans_of step2
        next heq =>
          simp at h
          obtain ⟨h1, _, h3⟩ := h
          subst h1; subst h3
          exact ⟨⟨[], by simp⟩, hx, fun hw => hw⟩
        · exact absurd h (by simp)
        · exact absurd h (by simp)
      · split at h
        next y r1 st1 heq =>
          have step1 := ihTerm _ _ _ _ _ heq
          have hx1 : x < st1.length := Nat.lt_of_lt_of_le hx (length_le_of_ext step1.1)
          have stepA : ParserStep st1 (st1 ++ [⟨.BiOp .Sub x y⟩]) st1.length :=
            ⟨⟨_, rfl⟩, length_lt_concat st1 _, fun hw => ast.WF_alloc_ast hw (by
              simp [ast.nodeRefs]
              exact ⟨hx1, step1.2.1⟩)⟩
          simp only [ast.alloc] at h
          have step2 := ihExprLoop _ _ _ _ _ _ (length_lt_concat st1 _) h
          exact (step1.trans_of stepA).trans_of step2
        next heq =>
          simp at h
          obtain ⟨h1, _, h3⟩ := h
          subst h1; subst h3
          exact ⟨⟨[], by simp⟩, hx, fun hw => hw⟩
        · exact absurd h (by simp)
        · exact absurd h (by simp)
      · simp at h
        obtain ⟨h1, _, h3⟩ := h
        subst h1; subst h3
        exact ⟨⟨[], by simp⟩, hx, fun hw => hw⟩
    exact ⟨hFactor, hTerm, hTermLoop, hExpr, hExprLoop⟩

/-- A successful parse yields a well-formed arena and an in-range root. -/
theorem parser.parse_wf {s : String} {a : ast.Arena} {r : ast.Id}
    (h : parser.parse s = .ok (a, r)) : ast.WF a ∧ r < a.length := by
  rw [parser.parse, parser.parseList] at h
  split at h
  next i rest st heq =>
    split at h
    · simp at h
      obtain ⟨h1, h2⟩ := h
      subst h1; subst h2
      have step := (parser.step_inv (parser.fuelFor s.data)).2.2.2.1 _ _ _ _ _ heq
      exact ⟨step.2.2 ast.WF_empty_ast, step.2.1⟩
    · exact absurd h (by simp)
  · exact absurd h (by simp)
  · exact absurd h (by simp)
  · exact absurd h (by simp)

theorem list_index_lt_of_getElem? {α : Type} {a : List α} {i : Nat} {n : α}
    (h : a[i]? = some n) : i < a.length := by
  by_contra hc
  rw [List.getElem?_eq_none (Nat.le_of_not_lt hc)] at h
  exact absurd h (by simp)

theorem ir.WF_empty_ir : ir.WF [] := by
  intro i n e hi
  simp at hi

theorem ir.WF_alloc_ir {a : ir.Arena} {k : ir.Kind}
    (ha : ir.WF a) (hk : ∀ e ∈ ir.nodeRefs k, e < a.length) :
    ir.WF (a ++ [⟨k⟩]) := by
  intro i n e hi he
  rcases Nat.lt_or_ge i a.length with h | h
  · rw [List.getElem?_append_left h] at hi
    exact ha i n e hi he
  · have hi2 := list_index_lt_of_getElem? hi
    simp at hi2
    have : i = a.length := Nat.le_antisymm (Nat.lt_succ_iff.mp hi2) h
    subst this
    rw [List.getElem?_concat_length] at hi
    cases hi
    exact hk e he

theorem ext_length_le {α : Type} {st st' : List α} (h : ∃ ext, st' = st ++ ext) :
    st.length ≤ st'.length := by
  obtain ⟨ext, rfl⟩ := h
  simp

/-- On a well-formed AST arena, lowering an in-range id with fuel above
the id always succeeds (references strictly decrease, so the recursion
is bounded by the id), extends the IR arena, returns an in-range id, and
preserves IR well-formedness. -/
theorem irgen.gen_ok :
    ∀ root f (a : ast.Arena) (st : ir.Arena), root < f → ast.WF a → root < a.length →
      ∃ st' i, irgen.generate_impl f a st root = .ok (st', i) ∧
        (∃ ext, st' = st ++ ext) ∧ i < st'.length ∧ (ir.WF st → ir.WF st') := by
  intro root
  induction root using Nat.strong_induction_on with
  | _ root ih =>
    intro f a st hf hwf hlen
    obtain ⟨n, hget⟩ : ∃ n, a[root]? = some n := ⟨_, List.getElem?_eq_getElem hlen⟩
    have hrefs : ∀ e ∈ ast.nodeRefs n.kind, e < root := fun e he => hwf root n e hget he
    match f, hf with
    | f+1, hf =>
      have hf2 : root ≤ f := Nat.lt_succ_iff.mp hf
      rw [irgen.generate_impl, hget]
      obtain ⟨kind⟩ := n
      match kind with
      | .Lit (.IntLit v) =>
        refine ⟨st ++ [⟨.IntValue v⟩], st.length, by simp [ir.alloc], ⟨_, rfl⟩, by simp,
          fun hw => ir.WF_alloc_ir hw (by simp [ir.nodeRefs])⟩
      | .Paren e =>
        have he : e < root := hrefs e (by simp [ast.nodeRefs])
        exact ih e he f a st (Nat.lt_of_lt_of_le he hf2) hwf (Nat.lt_trans he hlen)
      | .BiOp k l r =>
        have hl : l < root := hrefs l (by simp [ast.nodeRefs])
        have hr : r < root := hrefs r (by simp [ast.nodeRefs])
        obtain ⟨st1, li, heq1, hext1, hlt1, hw1⟩ :=
          ih l hl f a st (Nat.lt_of_lt_of_le hl hf2) hwf (Nat.lt_trans hl hlen)
        obtain ⟨st2, ri, heq2, hext2, hlt2, hw2⟩ :=
          ih r hr f a st1 (Nat.lt_of_lt_of_le hr hf2) hwf (Nat.lt_trans hr hlen)
        dsimp only
        rw [heq1]
        dsimp only
        rw [heq2]
        dsimp only
        refine ⟨st2 ++ [⟨.Op (irgen.map_biop_kind k) [li, ri]⟩], st2.length,
          by simp [ir.alloc], ?_, by simp, ?_⟩
        · obtain ⟨e1, rfl⟩ := hext1
          obtain ⟨e2, rfl⟩ := hext2
          exact ⟨e1 ++ e2 ++ [⟨.Op (irgen.map_biop_kind k) [li, ri]⟩], by simp⟩
        · intro hw
          refine ir.WF_alloc_ir (hw2 (hw1 hw)) ?_
          simp [ir.nodeRefs]
          exact ⟨Nat.lt_of_lt_of_le hlt1 (ext_length_le hext2), hlt2⟩

/-- C7: every arena returned by a successful parse, and every IR arena
returned by lowering it, is well-formed: each operand id stored in a
node resolves to a node of the same arena allocated strictly before the
referencing node, and the root is in range; allocation order is thus a
topological order and both structures are acyclic. -/
theorem claim_c7 :
    ∀ s a r, parser.parse s = .ok (a, r) →
      (ast.WF a ∧ r < a.length) ∧
      ∀ ia ri, irgen.generate a r = .ok (ia, ri) → ir.WF ia ∧ ri < ia.length := by
  intro s a r h
  have hp := parser.parse_wf h
  refine ⟨hp, ?_⟩
  intro ia ri hg
  obtain ⟨st', i, heq, _, hlt, hwf⟩ :=
    irgen.gen_ok r (r + 1) a [] (Nat.lt_succ_self r) hp.1 hp.2
  rw [irgen.generate, heq] at hg
  simp at hg
  obtain ⟨h1, h2⟩ := hg
  subst h1
  subst h2
  exact ⟨hwf ir.WF_empty_ir, hlt⟩

/-- C7 witness: the invariant at a concrete parse and lowering. -/
theorem claim_c7_witness :
    (ast.WF [⟨.Lit (.IntLit 1)⟩, ⟨.Lit (.IntLit 2)⟩, ⟨.BiOp .Add 0 1⟩] ∧ 2 < 3) ∧
    (ir.WF [⟨.IntValue 1⟩, ⟨.IntValue 2⟩, ⟨.Op .IAdd [0, 1]⟩] ∧ 2 < 3) :=
  ⟨(claim_c7 "1+2" [⟨.Lit (.IntLit 1)⟩, ⟨.Lit (.IntLit 2)⟩, ⟨.BiOp .Add 0 1⟩] 2
      (by decide)).1,
   (claim_c7 "1+2" [⟨.Lit (.IntLit 1)⟩, ⟨.Lit (.IntLit 2)⟩, ⟨.BiOp .Add 0 1⟩] 2
      (by decide)).2 [⟨.IntValue 1⟩, ⟨.IntValue 2⟩, ⟨.Op .IAdd [0, 1]⟩] 2 (by decide)⟩

/-- C8: on every (arena, root) pair produced by a successful parse,
lowering succeeds; its error branch (a dangling id) is unreachable on
parser output. -/
theorem claim_c8 :
    ∀ s a r, parser.parse s = .ok (a, r) → ∃ p, irgen.generate a r = .ok p := by
  intro s a r h
  have hp := parser.parse_wf h
  obtain ⟨st', i, heq, _⟩ :=
    irgen.gen_ok r (r + 1) a [] (Nat.lt_succ_self r) hp.1 hp.2
  exact ⟨(st', i), heq⟩

/-- C8 witness: lowering the parse of a concrete source does not error. -/
theorem claim_c8_witness : irgen.generate [⟨.Lit (.IntLit 1)⟩] 0 ≠ .err := by
  obtain ⟨p, hp⟩ := claim_c8 "1" [⟨.Lit (.IntLit 1)⟩] 0 (by decide)
  simp [hp]

/-- C9: parse and lowering are deterministic pure functions of their
input: the embedding threads all state explicitly (the Rust code
allocates a fresh arena per call and touches no global state), so two
runs on the same input return structurally equal results. -/
theorem claim_c9 :
    (∀ s p1 p2, parser.parse s = .ok p1 → parser.parse s = .ok p2 → p1 = p2) ∧
    (∀ a r q1 q2, irgen.generate a r = .ok q1 → irgen.generate a r = .ok q2 → q1 = q2) := by
  constructor
  · intro s p1 p2 h1 h2
    rw [h1] at h2
    cases h2
    rfl
  · intro a r q1 q2 h1 h2
    rw [h1] at h2
    cases h2
    rfl

/-- C9 witness: determinism instantiated at a concrete source. -/
theorem claim_c9_witness :
    (([⟨.Lit (.IntLit 1)⟩], 0) : ast.Arena × ast.Id) = ([⟨.Lit (.IntLit 1)⟩], 0) :=
  claim_c9.1 "1" ([⟨.Lit (.IntLit 1)⟩], 0) ([⟨.Lit (.IntLit 1)⟩], 0) (by decide) (by decide)

theorem suffix_of_dropWhile_cons {p : Char → Bool} {l r : List Char} {c : Char}
    (h : l.dropWhile p = c :: r) : r <:+ l :=
  (List.suffix_cons c r).trans (h ▸ List.dropWhile_suffix p)

theorem length_of_dropWhile_cons {p : Char → Bool} {l r : List Char} {c : Char}
    (h : l.dropWhile p = c :: r) : r.length + 1 ≤ l.length := by
  have := (List.dropWhile_suffix p (l := l)).length_le
  rw [h] at this
  simpa using this

/-- The input left over by any successful parser rule is a suffix of the
input the rule started from. -/
theorem parser.rest_suffix (f : Nat) :
    (∀ l st i r st', parser.factor f l st = .ok (i, r, st') → r <:+ l) ∧
    (∀ l st i r st', parser.term f l st = .ok (i, r, st') → r <:+ l) ∧
    (∀ x l st i r st', parser.termLoop f x l st = .ok (i, r, st') → r <:+ l) ∧
    (∀ l st i r st', parser.expr f l st = .ok (i, r, st') → r <:+ l) ∧
    (∀ x l st i r st', parser.exprLoop f x l st = .ok (i, r, st') → r <:+ l) := by
  induction f with
  | zero =>
    refine ⟨?_, ?_, ?_, ?_, ?_⟩ <;> intros <;> simp_all [parser.factor, parser.term,
      parser.termLoop, parser.expr, parser.exprLoop]
  | succ f ih =>
    obtain ⟨ihFactor, ihTerm, ihTermLoop, ihExpr, ihExprLoop⟩ := ih
    have hFactor : ∀ l st i r st', parser.factor (f + 1) l st = .ok (i, r, st') → r <:+ l := by
      intro l st i r st' h
      rw [parser.factor] at h
      split at h
      · exact absurd h (by simp)
      next c r0 heq =>
        split at h
        · simp only [ast.alloc] at h
          split at h
          · simp at h
            obtain ⟨_, h2, _⟩ := h
            subst h2
            exact (List.dropWhile_suffix isDigit).trans (List.dropWhile_suffix isWs)
          · exact absurd h (by simp)
        · split at h
          · split at h
            next e r1 st1 heq2 =>
              have hs1 : r1 <:+ r0 := ihExpr _ _ _ _ _ heq2
              split at h
              next r2 heq3 =>
                simp only [ast.alloc] at h
                simp at h
                obtain ⟨_, h2, _⟩ := h
                subst h2
                exact ((suffix_of_dropWhile_cons heq3).trans hs1).trans
                  (suffix_of_dropWhile_cons heq)
              · exact absurd h (by simp)
            · exact absurd h (by simp)
            · exact absurd h (by simp)
            · exact absurd h (by simp)
          · exact absurd h (by simp)
    have hTerm : ∀ l st i r st', parser.term (f + 1) l st = .ok (i, r, st') → r <:+ l := by
      intro l st i r st' h
      rw [parser.term] at h
      split at h
      next x r0 st1 heq =>
        exact (ihTermLoop _ _ _ _ _ _ h).trans (ihFactor _ _ _ _ _ heq)
      · exact absurd h (by simp)
      · exact absurd h (by simp)
      · exact absurd h (by simp)
    have hTermLoop : ∀ x l st i r st',
        parser.termLoop (f + 1) x l st = .ok (i, r, st') → r <:+ l := by
      intro x l st i r st' h
      rw [parser.termLoop] at h
      split at h
      next r0 heq =>
        split at h
        next y r1 st1 heq2 =>
          simp only [ast.alloc] at h
          have hs1 : r1 <:+ r0 := ihFactor _ _ _ _ _ heq2
          exact ((ihTermLoop _ _ _ _ _ _ h).trans hs1).trans (suffix_of_dropWhile_cons heq)
        next heq2 =>
          simp at h
          obtain ⟨_, h2, _⟩ := h
          subst h2
          exact List.suffix_rfl
        · exact absurd h (by simp)
        · exact absurd h (by simp)
      next r0 heq =>
        split at h
        next y r1 st1 heq2 =>
          simp only [ast.alloc] at h
          have hs1 : r1 <:+ r0 := ihFactor _ _ _ _ _ heq2
          exact ((ihTermLoop _ _ _ _ _ _ h).trans hs1).trans (suffix_of_dropWhile_cons heq)
        next heq2 =>
          simp at h
          obtain ⟨_, h2, _⟩ := h
          subst h2
          exact List.suffix_rfl
        · exact absurd h (by simp)
        · exact absurd h (by simp)
      · simp at h
        obtain ⟨_, h2, _⟩ := h
        subst h2
        exact List.suffix_rfl
    have hExpr : ∀ l st i r st', parser.expr (f + 1) l st = .ok (i, r, st') → r <:+ l := by
      intro l st i r st' h
      rw [parser.expr] at h
      split at h
      next x r0 st1 heq =>
        exact (ihExprLoop _ _ _ _ _ _ h).trans (ihTerm _ _ _ _ _ heq)
      · exact absurd h (by simp)
      · exact absurd h (by simp)
      · exact absurd h (by simp)
    have hExprLoop : ∀ x l st i r st',
        parser.exprLoop (f + 1) x l st = .ok (i, r, st') → r <:+ l := by
      intro x l st i r st' h
      rw [parser.exprLoop] at h
      split at h
      next r0 heq =>
        split at h
        next y r1 st1 heq2 =>
          simp only [ast.alloc] at h
          have hs1 : r1 <:+ r0 := ihTerm _ _ _ _ _ heq2
          exact ((ihExprLoop _ _ _ _ _ _ h).trans hs1).trans (suffix_of_dropWhile_cons heq)
        next heq2 =>
          simp at h
          obtain ⟨_, h2, _⟩ := h
          subst h2
          exact List.suffix_rfl
        · exact absurd h (by simp)
        · exact absurd h (by simp)
      next r0 heq =>
        split at h
        next y r1 st1 heq2 =>
          simp only [ast.alloc] at h
          have hs1 : r1 <:+ r0 := ihTerm _ _ _ _ _ heq2
          exact ((ihExprLoop _ _ _ _ _ _ h).trans hs1).trans (suffix_of_dropWhile_cons heq)
        next heq2 =>
          simp at h
          obtain ⟨_, h2, _⟩ := h
          subst h2
          exact List.suffix_rfl
        · exact absurd h (by simp)
        · exact absurd h (by simp)
      · simp at h
        obtain ⟨_, h2, _⟩ := h
        subst h2
        exact List.suffix_rfl
    exact ⟨hFactor, hTerm, hTermLoop, hExpr, hExprLoop⟩
/-- With fuel at least a small linear function of the remaining input
length, no parser rule runs out of fuel: the Rust recursion terminates
on every input. -/
theorem parser.no_fuelOut (f : Nat) :
    (∀ l st, 4 * l.length + 3 ≤ f → parser.factor f l st ≠ .fuelOut) ∧
    (∀ l st, 4 * l.length + 4 ≤ f → parser.term f l st ≠ .fuelOut) ∧
    (∀ x l st, 4 * l.length + 2 ≤ f → parser.termLoop f x l st ≠ .fuelOut) ∧
    (∀ l st, 4 * l.length + 5 ≤ f → parser.expr f l st ≠ .fuelOut) ∧
    (∀ x l st, 4 * l.length + 2 ≤ f → parser.exprLoop f x l st ≠ .fuelOut) := by
  induction f with
  | zero =>
    refine ⟨?_, ?_, ?_, ?_, ?_⟩ <;> intros <;> omega
  | succ f ih =>
    obtain ⟨ihFactor, ihTerm, ihTermLoop, ihExpr, ihExprLoop⟩ := ih
    have hFactor : ∀ l st, 4 * l.length + 3 ≤ f + 1 →
        parser.factor (f + 1) l st ≠ .fuelOut := by
      intro l st hb h
      rw [parser.factor] at h
      split at h
      · exact absurd h (by simp)
      next c r0 heq =>
        have hlen := length_of_dropWhile_cons heq
        split at h
        · simp only [ast.alloc] at h
          split at h
          · exact absurd h (by simp)
          · exact absurd h (by simp)
        · split at h
          · split at h
            next e r1 st1 heq2 =>
              split at h
              · simp only [ast.alloc] at h
                exact absurd h (by simp)
              · exact absurd h (by simp)
            · exact absurd h (by simp)
            · exact absurd h (by simp)
            next heq2 => exact ihExpr r0 st (by omega) heq2
          · exact absurd h (by simp)
    have hTerm : ∀ l st, 4 * l.length + 4 ≤ f + 1 →
        parser.term (f + 1) l st ≠ .fuelOut := by
      intro l st hb h
      rw [parser.term] at h
      split at h
      next x r0 st1 heq =>
        have hr0 : r0.length ≤ l.length := ((parser.rest_suffix f).1 _ _ _ _ _ heq).length_le
        exact ihTermLoop x r0 st1 (by omega) h
      · exact absurd h (by simp)
      · exact absurd h (by simp)
      next heq => exact ihFactor l st (by omega) heq
    have hTermLoop : ∀ x l st, 4 * l.length + 2 ≤ f + 1 →
        parser.termLoop (f + 1) x l st ≠ .fuelOut := by
      intro x l st hb h
      rw [parser.termLoop] at h
      split at h
      next r0 heq =>
        have hlen := length_of_dropWhile_cons heq
        split at h
        next y r1 st1 heq2 =>
          have hr1 : r1.length ≤ r0.length :=
            ((parser.rest_suffix f).1 _ _ _ _ _ heq2).length_le
          simp only [ast.alloc] at h
          exact ihTermLoop _ r1 _ (by omega) h
        · exact absurd h (by simp)
        · exact absurd h (by simp)
        next heq2 => exact ihFactor r0 st (by omega) heq2
      next r0 heq =>
        have hlen := length_of_dropWhile_cons heq
        split at h
        next y r1 st1 heq2 =>
          have hr1 : r1.length ≤ r0.length :=
            ((parser.rest_suffix f).1 _ _ _ _ _ heq2).length_le
          simp only [ast.alloc] at h
          exact ihTermLoop _ r1 _ (by omega) h
        · exact absurd h (by simp)
        · exact absurd h (by simp)
        next heq2 => exact ihFactor r0 st (by omega) heq2
      · exact absurd h (by simp)
    have hExpr : ∀ l st, 4 * l.length + 5 ≤ f + 1 →
        parser.expr (f + 1) l st ≠ .fuelOut := by
      intro l st hb h
      rw [parser.expr] at h
      split at h
      next x r0 st1 heq =>
        have hr0 : r0.length ≤ l.length := ((parser.rest_suffix f).2.1 _ _ _ _ _ heq).length_le
        exact ihExprLoop x r0 st1 (by omega) h
      · exact absurd h (by simp)
      · exact absurd h (by simp)
      next heq => exact ihTerm l st (by omega) heq
    have hExprLoop : ∀ x l st, 4 * l.length + 2 ≤ f + 1 →
        parser.exprLoop (f + 1) x l st ≠ .fuelOut := by
      intro x l st hb h
      rw [parser.exprLoop] at h
      split at h
      next r0 heq =>
        have hlen := length_of_dropWhile_cons heq
        split at h
        next y r1 st1 heq2 =>
          have hr1 : r1.length ≤ r0.length :=
            ((parser.rest_suffix f).2.1 _ _ _ _ _ heq2).length_le
          simp only [ast.alloc] at h
          exact ihExprLoop _ r1 _ (by omega) h
        · exact absurd h (by simp)
        · exact absurd h (by simp)
        next heq2 => exact ihTerm r0 st (by omega) heq2
      next r0 heq =>
        have hlen := length_of_dropWhile_cons heq
        split at h
        next y r1 st1 heq2 =>
          have hr1 : r1.length ≤ r0.length :=
            ((parser.rest_suffix f).2.1 _ _ _ _ _ heq2).length_le
          simp only [ast.alloc] at h
          exact ihExprLoop _ r1 _ (by omega) h
        · exact absurd h (by simp)
        · exact absurd h (by simp)
        next heq2 => exact ihTerm r0 st (by omega) heq2
      · exact absurd h (by simp)
    exact ⟨hFactor, hTerm, hTermLoop, hExpr, hExprLoop⟩
theorem litsInRange_mono {l t : List Char}
    (h : parser.LitsInRange l) (hs : t <:+ l) : parser.LitsInRange t := fun u hu =>
  h u ((List.mem_tails _ _).mpr (((List.mem_tails _ _).mp hu).trans hs))

theorem litsInRange_head {l : List Char} (h : parser.LitsInRange l) :
    parser.digitsVal (l.takeWhile parser.isDigit) ≤ parser.i64Max :=
  h l ((List.mem_tails _ _).mpr List.suffix_rfl)

/-- If every digit run in the input has an in-range value, no parser rule
panics: the .unwrap() in int_lit is the only panic site. -/
theorem parser.no_panic (f : Nat) :
    (∀ l st, parser.LitsInRange l → parser.factor f l st ≠ .panic) ∧
    (∀ l st, parser.LitsInRange l → parser.term f l st ≠ .panic) ∧
    (∀ x l st, parser.LitsInRange l → parser.termLoop f x l st ≠ .panic) ∧
    (∀ l st, parser.LitsInRange l → parser.expr f l st ≠ .panic) ∧
    (∀ x l st, parser.LitsInRange l → parser.exprLoop f x l st ≠ .panic) := by
  induction f with
  | zero =>
    refine ⟨?_, ?_, ?_, ?_, ?_⟩ <;> intros <;> simp_all [parser.factor, parser.term,
      parser.termLoop, parser.expr, parser.exprLoop]
  | succ f ih =>
    obtain ⟨ihFactor, ihTerm, ihTermLoop, ihExpr, ihExprLoop⟩ := ih
    have hFactor : ∀ l st, parser.LitsInRange l →
        parser.factor (f + 1) l st ≠ .panic := by
      intro l st hl h
      rw [parser.factor] at h
      split at h
      · exact absurd h (by simp)
      next c r0 heq =>
        split at h
        · simp only [ast.alloc] at h
          split at h
          · exact absurd h (by simp)
          next hv =>
            have := litsInRange_head (litsInRange_mono hl (List.dropWhile_suffix isWs))
            exact hv this
        · split at h
          · split at h
            next e r1 st1 heq2 =>
              split at h
              · simp only [ast.alloc] at h
                exact absurd h (by simp)
              · exact absurd h (by simp)
            · exact absurd h (by simp)
            next heq2 =>
              exact ihExpr r0 st (litsInRange_mono hl (suffix_of_dropWhile_cons heq)) heq2
            · exact absurd h (by simp)
          · exact absurd h (by simp)
    have hTerm : ∀ l st, parser.LitsInRange l →
        parser.term (f + 1) l st ≠ .panic := by
      intro l st hl h
      rw [parser.term] at h
      split at h
      next x r0 st1 heq =>
        exact ihTermLoop x r0 st1
          (litsInRange_mono hl ((parser.rest_suffix f).1 _ _ _ _ _ heq)) h
      · exact absurd h (by simp)
      next heq => exact ihFactor l st hl heq
      · exact absurd h (by simp)
    have hTermLoop : ∀ x l st, parser.LitsInRange l →
        parser.termLoop (f + 1) x l st ≠ .panic := by
      intro x l st hl h
      rw [parser.termLoop] at h
      split at h
      next r0 heq =>
        have hr0 : parser.LitsInRange r0 := litsInRange_mono hl (suffix_of_dropWhile_cons heq)
        split at h
        next y r1 st1 heq2 =>
          simp only [ast.alloc] at h
          exact ihTermLoop _ r1 _
            (litsInRange_mono hr0 ((parser.rest_suffix f).1 _ _ _ _ _ heq2)) h
        · exact absurd h (by simp)
        next heq2 => exact ihFactor r0 st hr0 heq2
        · exact absurd h (by simp)
      next r0 heq =>
        have hr0 : parser.LitsInRange r0 := litsInRange_mono hl (suffix_of_dropWhile_cons heq)
        split at h
        next y r1 st1 heq2 =>
          simp only [ast.alloc] at h
          exact ihTermLoop _ r1 _
            (litsInRange_mono hr0 ((parser.rest_suffix f).1 _ _ _ _ _ heq2)) h
        · exact absurd h (by simp)
        next heq2 => exact ihFactor r0 st hr0 heq2
        · exact absurd h (by simp)
      · exact absurd h (by simp)
    have hExpr : ∀ l st, parser.LitsInRange l →
        parser.expr (f + 1) l st ≠ .panic := by
      intro l st hl h
      rw [parser.expr] at h
      split at h
      next x r0 st1 heq =>
        exact ihExprLoop x r0 st1
          (litsInRange_mono hl ((parser.rest_suffix f).2.1 _ _ _ _ _ heq)) h
      · exact absurd h (by simp)
      next heq => exact ihTerm l st hl heq
      · exact absurd h (by simp)
    have hExprLoop : ∀ x l st, parser.LitsInRange l →
        parser.exprLoop (f + 1) x l st ≠ .panic := by
      intro x l st hl h
      rw [parser.exprLoop] at h
      split at h
      next r0 heq =>
        have hr0 : parser.LitsInRange r0 := litsInRange_mono hl (suffix_of_dropWhile_cons heq)
        split at h
        next y r1 st1 heq2 =>
          simp only [ast.alloc] at h
          exact ihExprLoop _ r1 _
            (litsInRange_mono hr0 ((parser.rest_suffix f).2.1 _ _ _ _ _ heq2)) h
        · exact absurd h (by simp)
        next heq2 => exact ihTerm r0 st hr0 heq2
        · exact absurd h (by simp)
      next r0 heq =>
        have hr0 : parser.LitsInRange r0 := litsInRange_mono hl (suffix_of_dropWhile_cons heq)
        split at h
        next y r1 st1 heq2 =>
          simp only [ast.alloc] at h
          exact ihExprLoop _ r1 _
            (litsInRange_mono hr0 ((parser.rest_suffix f).2.1 _ _ _ _ _ heq2)) h
        · exact absurd h (by simp)
        next heq2 => exact ihTerm r0 st hr0 heq2
        · exact absurd h (by simp)
      · exact absurd h (by simp)
    exact ⟨hFactor, hTerm, hTermLoop, hExpr, hExprLoop⟩

/-- C5 amended: on inputs whose digit runs are in the i64 range, parse
never panics and never exhausts the recursion: it either succeeds or
returns a ParseError, and a ParseError carries no partial arena; in
particular the missing operand 1+, the unmatched parenthesis (1, the
empty string, and the trailing unparsed input of 1 2 all fail. -/
theorem claim_c5 :
    (∀ s : String, parser.LitsInRange s.data →
      parser.parse s ≠ .panic ∧ parser.parse s ≠ .fuelOut) ∧
    parser.parse "1+" = .fail ∧ parser.parse "(1" = .fail ∧
    parser.parse "" = .fail ∧ parser.parse "1 2" = .fail := by
  refine ⟨?_, by decide, by decide, by decide, by decide⟩
  intro s hs
  have hnp := (parser.no_panic (parser.fuelFor s.data)).2.2.2.1 s.data [] hs
  have hnf := (parser.no_fuelOut (parser.fuelFor s.data)).2.2.2.1 s.data []
    (by simp only [parser.fuelFor]; omega)
  rw [parser.parse, parser.parseList]
  rcases hh : parser.expr (parser.fuelFor s.data) s.data [] with p | _ | _ | _
  · obtain ⟨i, r, st⟩ := p
    dsimp only
    refine ⟨?_, ?_⟩ <;> split <;> simp
  · dsimp only
    simp
  · exact absurd hh hnp
  · exact absurd hh hnf

/-- C5 witness: a concrete malformed input neither panics nor hangs. -/
theorem claim_c5_witness :
    parser.parse "1+" ≠ .panic ∧ parser.parse "1+" ≠ .fuelOut :=
  claim_c5.1 "1+" (by unfold parser.LitsInRange; decide)

theorem ws_not_digit {c : Char} (h : parser.isWs c = true) : parser.isDigit c = false := by
  simp only [parser.isWs, Bool.or_eq_true, decide_eq_true_eq] at h
  rcases h with ((h | h) | h) | h <;> subst h <;> decide

theorem digit_not_ws {c : Char} (h : parser.isDigit c = true) : parser.isWs c = false := by
  cases hw : parser.isWs c
  · rfl
  · rw [ws_not_digit hw] at h
    cases h

theorem digit_ne {d c : Char} (hd : parser.isDigit d = true)
    (hc : parser.isDigit c = false) : d ≠ c := by
  intro he
  subst he
  rw [hd] at hc
  cases hc

theorem dropWhile_all_nil {p : Char → Bool} {w : List Char} (h : w.all p = true) :
    w.dropWhile p = [] := by
  induction w with
  | nil => rfl
  | cons c r ih =>
    simp only [List.all_cons, Bool.and_eq_true] at h
    rw [List.dropWhile_cons_of_pos h.1]
    exact ih h.2

theorem dropWhile_ws_append {w x : List Char} (h : w.all parser.isWs = true) :
    (w ++ x).dropWhile parser.isWs = x.dropWhile parser.isWs :=
  List.dropWhile_append_of_pos (List.all_eq_true.mp h)

theorem goodItems_cons {w : List Char} {t : parser.Tok} {r : List (List Char × parser.Tok)}
    (h : parser.goodItems ((w, t) :: r) = true) :
    w.all parser.isWs = true ∧ parser.goodTok t = true ∧ parser.sepOk t r = true ∧
      parser.goodItems r = true := by
  simp only [parser.goodItems, Bool.and_eq_true] at h
  tauto

theorem tokChars_cons {t : parser.Tok} (h : parser.goodTok t = true) :
    ∃ c cs, parser.tokChars t = c :: cs ∧ parser.isWs c = false := by
  cases t with
  | TInt ds =>
    cases ds with
    | nil => simp [parser.goodTok] at h
    | cons d ds2 =>
      have hd : parser.isDigit d = true := by
        simp only [parser.goodTok, Bool.and_eq_true, List.all_cons] at h
        exact h.2.1
      exact ⟨d, ds2, rfl, digit_not_ws hd⟩
  | TPlus => exact ⟨'+', [], rfl, by decide⟩
  | TMinus => exact ⟨'-', [], rfl, by decide⟩
  | TStar => exact ⟨'*', [], rfl, by decide⟩
  | TSlash => exact ⟨'/', [], rfl, by decide⟩
  | TLP => exact ⟨'(', [], rfl, by decide⟩
  | TRP => exact ⟨')', [], rfl, by decide⟩

theorem renderDropWs (tws : List Char) {w : List Char} {t : parser.Tok}
    {r : List (List Char × parser.Tok)} (hg : parser.goodItems ((w, t) :: r) = true) :
    (parser.render ((w, t) :: r) tws).dropWhile parser.isWs =
      parser.tokChars t ++ parser.render r tws := by
  obtain ⟨hw, ht, _, _⟩ := goodItems_cons hg
  rw [parser.render, dropWhile_ws_append hw]
  obtain ⟨c, cs, hc, hcw⟩ := tokChars_cons ht
  rw [hc, List.cons_append, List.dropWhile_cons_of_neg (by simp [hcw])]

theorem render_nil_dropWs {tws : List Char} (h : tws.all parser.isWs = true) :
    (parser.render [] tws).dropWhile parser.isWs = [] := dropWhile_all_nil h

theorem render_head_not_digit {ds : List Char} {r : List (List Char × parser.Tok)}
    {tws : List Char} (hg : parser.goodItems r = true)
    (htws : tws.all parser.isWs = true) (hs : parser.sepOk (.TInt ds) r = true) :
    ∀ c y, parser.render r tws = c :: y → parser.isDigit c = false := by
  intro c y hr
  cases r with
  | nil =>
    have hmem : c ∈ tws := by
      have : parser.render [] tws = tws := rfl
      rw [this] at hr
      rw [hr]
      simp
    exact ws_not_digit (List.all_eq_true.mp htws c hmem)
  | cons wt r2 =>
    obtain ⟨w2, t2⟩ := wt
    obtain ⟨hw2, ht2, _, _⟩ := goodItems_cons hg
    rw [parser.render] at hr
    cases hw2c : w2 with
    | cons c2 w2b =>
      rw [hw2c, List.cons_append] at hr
      injection hr with h1 _
      subst h1
      rw [hw2c] at hw2
      simp only [List.all_cons, Bool.and_eq_true] at hw2
      exact ws_not_digit hw2.1
    | nil =>
      rw [hw2c, List.nil_append] at hr
      cases t2 with
      | TInt ds2 =>
        rw [hw2c] at hs
        simp [parser.sepOk] at hs
      | TPlus =>
        injection hr with h1 _
        subst h1
        decide
      | TMinus =>
        injection hr with h1 _
        subst h1
        decide
      | TStar =>
        injection hr with h1 _
        subst h1
        decide
      | TSlash =>
        injection hr with h1 _
        subst h1
        decide
      | TLP =>
        injection hr with h1 _
        subst h1
        decide
      | TRP =>
        injection hr with h1 _
        subst h1
        decide

theorem scan_digits {ds X : List Char} (hds : ds.all parser.isDigit = true)
    (hX : ∀ c y, X = c :: y → parser.isDigit c = false) :
    (ds ++ X).takeWhile parser.isDigit = ds ∧ (ds ++ X).dropWhile parser.isDigit = X := by
  constructor
  · rw [List.takeWhile_append_of_pos (List.all_eq_true.mp hds)]
    cases hX2 : X with
    | nil => simp
    | cons c y =>
      rw [List.takeWhile_cons_of_neg (by simp [hX c y hX2])]
      simp
  · rw [List.dropWhile_append_of_pos (List.all_eq_true.mp hds)]
    cases hX2 : X with
    | nil => rfl
    | cons c y =>
      rw [List.dropWhile_cons_of_neg (by simp [hX c y hX2])]

theorem parser.factor_stop {f : Nat} {l : List Char} {st : ast.Arena} {c : Char}
    {rest : List Char} (hl : l.dropWhile parser.isWs = c :: rest)
    (h1 : parser.isDigit c = false) (h2 : c ≠ '(') :
    parser.factor (f + 1) l st = .fail := by
  rw [parser.factor, hl]
  simp [h1, h2]

theorem parser.termLoop_stop {f : Nat} {x : ast.Id} {l : List Char} {st : ast.Arena}
    {c : Char} {rest : List Char} (hl : l.dropWhile parser.isWs = c :: rest)
    (h1 : c ≠ '*') (h2 : c ≠ '/') :
    parser.termLoop (f + 1) x l st = .ok (x, l, st) := by
  rw [parser.termLoop, hl]
  split
  next r0 heq =>
    injection heq with hc _
    exact absurd hc h1
  next r0 heq =>
    injection heq with hc _
    exact absurd hc h2
  · rfl

theorem parser.termLoop_nil {f : Nat} {x : ast.Id} {l : List Char} {st : ast.Arena}
    (hl : l.dropWhile parser.isWs = []) :
    parser.termLoop (f + 1) x l st = .ok (x, l, st) := by
  rw [parser.termLoop, hl]

theorem parser.exprLoop_stop {f : Nat} {x : ast.Id} {l : List Char} {st : ast.Arena}
    {c : Char} {rest : List Char} (hl : l.dropWhile parser.isWs = c :: rest)
    (h1 : c ≠ '+') (h2 : c ≠ '-') :
    parser.exprLoop (f + 1) x l st = .ok (x, l, st) := by
  rw [parser.exprLoop, hl]
  split
  next r0 heq =>
    injection heq with hc _
    exact absurd hc h1
  next r0 heq =>
    injection heq with hc _
    exact absurd hc h2
  · rfl

theorem parser.exprLoop_nil {f : Nat} {x : ast.Id} {l : List Char} {st : ast.Arena}
    (hl : l.dropWhile parser.isWs = []) :
    parser.exprLoop (f + 1) x l st = .ok (x, l, st) := by
  rw [parser.exprLoop, hl]
theorem parser.factor_digit {f : Nat} {l : List Char} {st : ast.Arena} {d : Char}
    {rest : List Char} (hl : l.dropWhile parser.isWs = d :: rest)
    (hd : parser.isDigit d = true) :
    parser.factor (f + 1) l st =
      if parser.digitsVal ((d :: rest).takeWhile parser.isDigit) ≤ parser.i64Max then
        .ok (st.length, (d :: rest).dropWhile parser.isDigit,
          st ++ [⟨.Lit (.IntLit (Int.ofNat
            (parser.digitsVal ((d :: rest).takeWhile parser.isDigit))))⟩])
      else .panic := by
  rw [parser.factor, hl]
  simp only [hd, ast.alloc, if_true]

theorem parser.factor_lp {f : Nat} {l : List Char} {st : ast.Arena} {rest : List Char}
    (hl : l.dropWhile parser.isWs = '(' :: rest) :
    parser.factor (f + 1) l st =
      (match parser.expr f rest st with
       | .ok (e, r1, st1) =>
         (match r1.dropWhile parser.isWs with
          | ')' :: r2 => .ok (st1.length, r2, st1 ++ [⟨.Paren e⟩])
          | _ => .fail)
       | .fail => .fail
       | .panic => .panic
       | .fuelOut => .fuelOut) := by
  rw [parser.factor, hl]
  rfl

theorem parser.termLoop_star {f : Nat} {x : ast.Id} {l : List Char} {st : ast.Arena}
    {rest : List Char} (hl : l.dropWhile parser.isWs = '*' :: rest) :
    parser.termLoop (f + 1) x l st =
      (match parser.factor f rest st with
       | .ok (y, r1, st1) => parser.termLoop f st1.length r1 (st1 ++ [⟨.BiOp .Mul x y⟩])
       | .fail => .ok (x, l, st)
       | .panic => .panic
       | .fuelOut => .fuelOut) := by
  rw [parser.termLoop, hl]
  rfl

theorem parser.termLoop_slash {f : Nat} {x : ast.Id} {l : List Char} {st : ast.Arena}
    {rest : List Char} (hl : l.dropWhile parser.isWs = '/' :: rest) :
    parser.termLoop (f + 1) x l st =
      (match parser.factor f rest st with
       | .ok (y, r1, st1) => parser.termLoop f st1.length r1 (st1 ++ [⟨.BiOp .Div x y⟩])
       | .fail => .ok (x, l, st)
       | .panic => .panic
       | .fuelOut => .fuelOut) := by
  rw [parser.termLoop, hl]
  rfl

theorem parser.exprLoop_plus {f : Nat} {x : ast.Id} {l : List Char} {st : ast.Arena}
    {rest : List Char} (hl : l.dropWhile parser.isWs = '+' :: rest) :
    parser.exprLoop (f + 1) x l st =
      (match parser.term f rest st with
       | .ok (y, r1, st1) => parser.exprLoop f st1.length r1 (st1 ++ [⟨.BiOp .Add x y⟩])
       | .fail => .ok (x, l, st)
       | .panic => .panic
       | .fuelOut => .fuelOut) := by
  rw [parser.exprLoop, hl]
  rfl

theorem parser.exprLoop_minus {f : Nat} {x : ast.Id} {l : List Char} {st : ast.Arena}
    {rest : List Char} (hl : l.dropWhile parser.isWs = '-' :: rest) :
    parser.exprLoop (f + 1) x l st =
      (match parser.term f rest st with
       | .ok (y, r1, st1) => parser.exprLoop f st1.length r1 (st1 ++ [⟨.BiOp .Sub x y⟩])
       | .fail => .ok (x, l, st)
       | .panic => .panic
       | .fuelOut => .fuelOut) := by
  rw [parser.exprLoop, hl]
  rfl

theorem parser.tFactor_int {f : Nat} {ds : List Char} {ts : List parser.Tok}
    {st : ast.Arena} :
    parser.tFactor (f + 1) (.TInt ds :: ts) st =
      if parser.digitsVal ds ≤ parser.i64Max then
        .ok (st.length, ts, st ++ [⟨.Lit (.IntLit (Int.ofNat (parser.digitsVal ds)))⟩])
      else .panic := rfl

theorem parser.tFactor_lp {f : Nat} {ts : List parser.Tok} {st : ast.Arena} :
    parser.tFactor (f + 1) (.TLP :: ts) st =
      (match parser.tExpr f ts st with
       | .ok (e, r1, st1) =>
         (match r1 with
          | .TRP :: r2 => .ok (st1.length, r2, st1 ++ [⟨.Paren e⟩])
          | _ => .fail)
       | .fail => .fail
       | .panic => .panic
       | .fuelOut => .fuelOut) := rfl

theorem parser.tTermLoop_star {f : Nat} {x : ast.Id} {ts : List parser.Tok}
    {st : ast.Arena} :
    parser.tTermLoop (f + 1) x (.TStar :: ts) st =
      (match parser.tFactor f ts st with
       | .ok (y, r1, st1) => parser.tTermLoop f st1.length r1 (st1 ++ [⟨.BiOp .Mul x y⟩])
       | .fail => .ok (x, .TStar :: ts, st)
       | .panic => .panic
       | .fuelOut => .fuelOut) := rfl

theorem parser.tTermLoop_slash {f : Nat} {x : ast.Id} {ts : List parser.Tok}
    {st : ast.Arena} :
    parser.tTermLoop (f + 1) x (.TSlash :: ts) st =
      (match parser.tFactor f ts st with
       | .ok (y, r1, st1) => parser.tTermLoop f st1.length r1 (st1 ++ [⟨.BiOp .Div x y⟩])
       | .fail => .ok (x, .TSlash :: ts, st)
       | .panic => .panic
       | .fuelOut => .fuelOut) := rfl

theorem parser.tExprLoop_plus {f : Nat} {x : ast.Id} {ts : List parser.Tok}
    {st : ast.Arena} :
    parser.tExprLoop (f + 1) x (.TPlus :: ts) st =
      (match parser.tTerm f ts st with
       | .ok (y, r1, st1) => parser.tExprLoop f st1.length r1 (st1 ++ [⟨.BiOp .Add x y⟩])
       | .fail => .ok (x, .TPlus :: ts, st)
       | .panic => .panic
       | .fuelOut => .fuelOut) := rfl

theorem parser.tExprLoop_minus {f : Nat} {x : ast.Id} {ts : List parser.Tok}
    {st : ast.Arena} :
    parser.tExprLoop (f + 1) x (.TMinus :: ts) st =
      (match parser.tTerm f ts st with
       | .ok (y, r1, st1) => parser.tExprLoop f st1.length r1 (st1 ++ [⟨.BiOp .Sub x y⟩])
       | .fail => .ok (x, .TMinus :: ts, st)
       | .panic => .panic
       | .fuelOut => .fuelOut) := rfl
/-- The character-level parser on any rendering of a well-formed token
sequence behaves exactly as the token-level parser on the tokens: same
outcome, same arena, and a remainder that is again a rendering. One
induction over fuel covers all five rules. -/
theorem parser.sim (f : Nat) :
    (∀ its tws st, parser.goodItems its = true → tws.all parser.isWs = true →
      parser.SimRes (parser.factor f (parser.render its tws) st)
        (parser.tFactor f (its.map Prod.snd) st)) ∧
    (∀ its tws st, parser.goodItems its = true → tws.all parser.isWs = true →
      parser.SimRes (parser.term f (parser.render its tws) st)
        (parser.tTerm f (its.map Prod.snd) st)) ∧
    (∀ x its tws st, parser.goodItems its = true → tws.all parser.isWs = true →
      parser.SimRes (parser.termLoop f x (parser.render its tws) st)
        (parser.tTermLoop f x (its.map Prod.snd) st)) ∧
    (∀ its tws st, parser.goodItems its = true → tws.all parser.isWs = true →
      parser.SimRes (parser.expr f (parser.render its tws) st)
        (parser.tExpr f (its.map Prod.snd) st)) ∧
    (∀ x its tws st, parser.goodItems its = true → tws.all parser.isWs = true →
      parser.SimRes (parser.exprLoop f x (parser.render its tws) st)
        (parser.tExprLoop f x (its.map Prod.snd) st)) := by
  induction f with
  | zero =>
    refine ⟨?_, ?_, ?_, ?_, ?_⟩ <;> intros <;> exact trivial
  | succ f ih =>
    obtain ⟨ihF, ihT, ihTL, ihE, ihEL⟩ := ih
    have hFactor : ∀ its tws st, parser.goodItems its = true →
        tws.all parser.isWs = true →
        parser.SimRes (parser.factor (f + 1) (parser.render its tws) st)
          (parser.tFactor (f + 1) (its.map Prod.snd) st) := by
      intro its tws st hg htws
      cases its with
      | nil =>
        rw [parser.factor, render_nil_dropWs htws]
        exact trivial
      | cons wt r =>
        obtain ⟨w, t⟩ := wt
        obtain ⟨hw, ht, hsep, hgr⟩ := goodItems_cons hg
        have hdw := renderDropWs tws hg
        cases t with
        | TInt ds =>
          cases ds with
          | nil => simp [parser.goodTok] at ht
          | cons d ds2 =>
            have hd : parser.isDigit d = true := by
              simp only [parser.goodTok, Bool.and_eq_true, List.all_cons] at ht
              exact ht.2.1
            have hds2 : ds2.all parser.isDigit = true := by
              simp only [parser.goodTok, Bool.and_eq_true, List.all_cons] at ht
              exact ht.2.2
            have hnd := render_head_not_digit hgr htws hsep
            have hscan := scan_digits hds2 hnd
            have hdw2 : (parser.render ((w, .TInt (d :: ds2)) :: r) tws).dropWhile
                parser.isWs = d :: (ds2 ++ parser.render r tws) := by
              simpa [parser.tokChars] using hdw
            rw [parser.factor_digit hdw2 hd]
            simp only [List.map_cons]
            rw [parser.tFactor_int]
            simp only [List.takeWhile_cons_of_pos hd, List.dropWhile_cons_of_pos hd,
              hscan.1, hscan.2]
            by_cases hv : parser.digitsVal (d :: ds2) ≤ parser.i64Max
            · rw [if_pos hv, if_pos hv]
              exact ⟨rfl, rfl, r, tws, hgr, htws, rfl, rfl⟩
            · rw [if_neg hv, if_neg hv]
              exact trivial
        | TLP =>
          have hdw2 : (parser.render ((w, .TLP) :: r) tws).dropWhile parser.isWs =
              '(' :: parser.render r tws := by
            simpa [parser.tokChars] using hdw
          rw [parser.factor_lp hdw2]
          simp only [List.map_cons]
          rw [parser.tFactor_lp]
          have hs := ihE r tws st hgr htws
          revert hs
          rcases hce : parser.expr f (parser.render r tws) st with p | _ | _ | _ <;>
            rcases hte : parser.tExpr f (List.map Prod.snd r) st with q | _ | _ | _ <;>
              intro hs <;> try exact False.elim hs
          · obtain ⟨e1, c1, st1⟩ := p
            obtain ⟨e2, t1, st2⟩ := q
            obtain ⟨he, hst, its1, tws1, hg1, ht1, hc1, ht1e⟩ := hs
            subst he
            subst hst
            subst hc1
            subst ht1e
            dsimp only
            cases its1 with
            | nil =>
              rw [render_nil_dropWs ht1]
              exact trivial
            | cons wt1 r1 =>
              obtain ⟨w1, t1b⟩ := wt1
              obtain ⟨hw1, ht1b, hsep1, hgr1⟩ := goodItems_cons hg1
              have hdw1 := renderDropWs tws1 hg1
              cases t1b with
              | TRP =>
                have hdw1b : (parser.render ((w1, .TRP) :: r1) tws1).dropWhile
                    parser.isWs = ')' :: parser.render r1 tws1 := by
                  simpa [parser.tokChars] using hdw1
                rw [hdw1b]
                simp only [List.map_cons]
                exact ⟨rfl, rfl, r1, tws1, hgr1, ht1, rfl, rfl⟩
              | TInt ds1 =>
                cases ds1 with
                | nil => simp [parser.goodTok] at ht1b
                | cons d1 ds1b =>
                  have hd1 : parser.isDigit d1 = true := by
                    simp only [parser.goodTok, Bool.and_eq_true, List.all_cons] at ht1b
                    exact ht1b.2.1
                  have hdw1b : (parser.render ((w1, .TInt (d1 :: ds1b)) :: r1)
                      tws1).dropWhile parser.isWs =
                      d1 :: (ds1b ++ parser.render r1 tws1) := by
                    simpa [parser.tokChars] using hdw1
                  rw [hdw1b]
                  simp only [List.map_cons]
                  split
                  next heq =>
                    injection heq with hch _
                    exact absurd hch (digit_ne hd1 (by decide))
                  · exact trivial
              | TPlus =>
                have hdw1b : (parser.render ((w1, .TPlus) :: r1) tws1).dropWhile
                    parser.isWs = '+' :: parser.render r1 tws1 := by
                  simpa [parser.tokChars] using hdw1
                rw [hdw1b]
                simp only [List.map_cons]
                exact trivial
              | TMinus =>
                have hdw1b : (parser.render ((w1, .TMinus) :: r1) tws1).dropWhile
                    parser.isWs = '-' :: parser.render r1 tws1 := by
                  simpa [parser.tokChars] using hdw1
                rw [hdw1b]
                simp only [List.map_cons]
                exact trivial
              | TStar =>
                have hdw1b : (parser.render ((w1, .TStar) :: r1) tws1).dropWhile
                    parser.isWs = '*' :: parser.render r1 tws1 := by
                  simpa [parser.tokChars] using hdw1
                rw [hdw1b]
                simp only [List.map_cons]
                exact trivial
              | TSlash =>
                have hdw1b : (parser.render ((w1, .TSlash) :: r1) tws1).dropWhile
                    parser.isWs = '/' :: parser.render r1 tws1 := by
                  simpa [parser.tokChars] using hdw1
                rw [hdw1b]
                simp only [List.map_cons]
                exact trivial
              | TLP =>
                have hdw1b : (parser.render ((w1, .TLP) :: r1) tws1).dropWhile
                    parser.isWs = '(' :: parser.render r1 tws1 := by
                  simpa [parser.tokChars] using hdw1
                rw [hdw1b]
                simp only [List.map_cons]
                exact trivial
          · exact trivial
          · exact trivial
          · exact trivial
        | TPlus =>
          have hdw2 : (parser.render ((w, .TPlus) :: r) tws).dropWhile parser.isWs =
              '+' :: parser.render r tws := by
            simpa [parser.tokChars] using hdw
          rw [parser.factor_stop hdw2 (by decide) (by decide)]
          exact trivial
        | TMinus =>
          have hdw2 : (parser.render ((w, .TMinus) :: r) tws).dropWhile parser.isWs =
              '-' :: parser.render r tws := by
            simpa [parser.tokChars] using hdw
          rw [parser.factor_stop hdw2 (by decide) (by decide)]
          exact trivial
        | TStar =>
          have hdw2 : (parser.render ((w, .TStar) :: r) tws).dropWhile parser.isWs =
              '*' :: parser.render r tws := by
            simpa [parser.tokChars] using hdw
          rw [parser.factor_stop hdw2 (by decide) (by decide)]
          exact trivial
        | TSlash =>
          have hdw2 : (parser.render ((w, .TSlash) :: r) tws).dropWhile parser.isWs =
              '/' :: parser.render r tws := by
            simpa [parser.tokChars] using hdw
          rw [parser.factor_stop hdw2 (by decide) (by decide)]
          exact trivial
        | TRP =>
          have hdw2 : (parser.render ((w, .TRP) :: r) tws).dropWhile parser.isWs =
              ')' :: parser.render r tws := by
            simpa [parser.tokChars] using hdw
          rw [parser.factor_stop hdw2 (by decide) (by decide)]
          exact trivial
    have hTerm : ∀ its tws st, parser.goodItems its = true →
        tws.all parser.isWs = true →
        parser.SimRes (parser.term (f + 1) (parser.render its tws) st)
          (parser.tTerm (f + 1) (its.map Prod.snd) st) := by
      intro its tws st hg htws
      rw [parser.term, parser.tTerm]
      have hs := ihF its tws st hg htws
      revert hs
      rcases hcf : parser.factor f (parser.render its tws) st with p | _ | _ | _ <;>
        rcases htf : parser.tFactor f (List.map Prod.snd its) st with q | _ | _ | _ <;>
          intro hs <;> try exact False.elim hs
      · obtain ⟨x1, c1, st1⟩ := p
        obtain ⟨x2, t1, st2⟩ := q
        obtain ⟨hx, hst, its1, tws1, hg1, ht1, hc1, ht1e⟩ := hs
        subst hx
        subst hst
        subst hc1
        subst ht1e
        dsimp only
        exact ihTL x1 its1 tws1 st1 hg1 ht1
      · exact trivial
      · exact trivial
      · exact trivial
    have hTermLoop : ∀ x its tws st, parser.goodItems its = true →
        tws.all parser.isWs = true →
        parser.SimRes (parser.termLoop (f + 1) x (parser.render its tws) st)
          (parser.tTermLoop (f + 1) x (its.map Prod.snd) st) := by
      intro x its tws st hg htws
      cases its with
      | nil =>
        rw [parser.termLoop_nil (render_nil_dropWs htws)]
        exact ⟨rfl, rfl, [], tws, rfl, htws, rfl, rfl⟩
      | cons wt r =>
        obtain ⟨w, t⟩ := wt
        obtain ⟨hw, ht, hsep, hgr⟩ := goodItems_cons hg
        have hdw := renderDropWs tws hg
        cases t with
        | TStar =>
          have hdw2 : (parser.render ((w, .TStar) :: r) tws).dropWhile parser.isWs =
              '*' :: parser.render r tws := by
            simpa [parser.tokChars] using hdw
          rw [parser.termLoop_star hdw2]
          simp only [List.map_cons]
          rw [parser.tTermLoop_star]
          have hs := ihF r tws st hgr htws
          revert hs
          rcases hcf : parser.factor f (parser.render r tws) st with p | _ | _ | _ <;>
            rcases htf : parser.tFactor f (List.map Prod.snd r) st with q | _ | _ | _ <;>
              intro hs <;> try exact False.elim hs
          · obtain ⟨y1, c1, st1⟩ := p
            obtain ⟨y2, t1, st2⟩ := q
            obtain ⟨hy, hst, its1, tws1, hg1, ht1, hc1, ht1e⟩ := hs
            subst hy
            subst hst
            subst hc1
            subst ht1e
            dsimp only
            exact ihTL st1.length its1 tws1 (st1 ++ [⟨.BiOp .Mul x y1⟩]) hg1 ht1
          · dsimp only
            exact ⟨rfl, rfl, (w, .TStar) :: r, tws, hg, htws, rfl, rfl⟩
          · exact trivial
          · exact trivial
        | TSlash =>
          have hdw2 : (parser.render ((w, .TSlash) :: r) tws).dropWhile parser.isWs =
              '/' :: parser.render r tws := by
            simpa [parser.tokChars] using hdw
          rw [parser.termLoop_slash hdw2]
          simp only [List.map_cons]
          rw [parser.tTermLoop_slash]
          have hs := ihF r tws st hgr htws
          revert hs
          rcases hcf : parser.factor f (parser.render r tws) st with p | _ | _ | _ <;>
            rcases htf : parser.tFactor f (List.map Prod.snd r) st with q | _ | _ | _ <;>
              intro hs <;> try exact False.elim hs
          · obtain ⟨y1, c1, st1⟩ := p
            obtain ⟨y2, t1, st2⟩ := q
            obtain ⟨hy, hst, its1, tws1, hg1, ht1, hc1, ht1e⟩ := hs
            subst hy
            subst hst
            subst hc1
            subst ht1e
            dsimp only
            exact ihTL st1.length its1 tws1 (st1 ++ [⟨.BiOp .Div x y1⟩]) hg1 ht1
          · dsimp only
            exact ⟨rfl, rfl, (w, .TSlash) :: r, tws, hg, htws, rfl, rfl⟩
          · exact trivial
          · exact trivial
        | TInt ds =>
          cases ds with
          | nil => simp [parser.goodTok] at ht
          | cons d ds2 =>
            have hd : parser.isDigit d = true := by
              simp only [parser.goodTok, Bool.and_eq_true, List.all_cons] at ht
              exact ht.2.1
            have hdw2 : (parser.render ((w, .TInt (d :: ds2)) :: r) tws).dropWhile
                parser.isWs = d :: (ds2 ++ parser.render r tws) := by
              simpa [parser.tokChars] using hdw
            rw [parser.termLoop_stop hdw2 (digit_ne hd (by decide)) (digit_ne hd (by decide))]
            exact ⟨rfl, rfl, (w, .TInt (d :: ds2)) :: r, tws, hg, htws, rfl, rfl⟩
        | TPlus =>
          have hdw2 : (parser.render ((w, .TPlus) :: r) tws).dropWhile parser.isWs =
              '+' :: parser.render r tws := by
            simpa [parser.tokChars] using hdw
          rw [parser.termLoop_stop hdw2 (by decide) (by decide)]
          exact ⟨rfl, rfl, (w, .TPlus) :: r, tws, hg, htws, rfl, rfl⟩
        | TMinus =>
          have hdw2 : (parser.render ((w, .TMinus) :: r) tws).dropWhile parser.isWs =
              '-' :: parser.render r tws := by
            simpa [parser.tokChars] using hdw
          rw [parser.termLoop_stop hdw2 (by decide) (by decide)]
          exact ⟨rfl, rfl, (w, .TMinus) :: r, tws, hg, htws, rfl, rfl⟩
        | TLP =>
          have hdw2 : (parser.render ((w, .TLP) :: r) tws).dropWhile parser.isWs =
              '(' :: parser.render r tws := by
            simpa [parser.tokChars] using hdw
          rw [parser.termLoop_stop hdw2 (by decide) (by decide)]
          exact ⟨rfl, rfl, (w, .TLP) :: r, tws, hg, htws, rfl, rfl⟩
        | TRP =>
          have hdw2 : (parser.render ((w, .TRP) :: r) tws).dropWhile parser.isWs =
              ')' :: parser.render r tws := by
            simpa [parser.tokChars] using hdw
          rw [parser.termLoop_stop hdw2 (by decide) (by decide)]
          exact ⟨rfl, rfl, (w, .TRP) :: r, tws, hg, htws, rfl, rfl⟩
    have hExpr : ∀ its tws st, parser.goodItems its = true →
        tws.all parser.isWs = true →
        parser.SimRes (parser.expr (f + 1) (parser.render its tws) st)
          (parser.tExpr (f + 1) (its.map Prod.snd) st) := by
      intro its tws st hg htws
      rw [parser.expr, parser.tExpr]
      have hs := ihT its tws st hg htws
      revert hs
      rcases hcf : parser.term f (parser.render its tws) st with p | _ | _ | _ <;>
        rcases htf : parser.tTerm f (List.map Prod.snd its) st with q | _ | _ | _ <;>
          intro hs <;> try exact False.elim hs
      · obtain ⟨x1, c1, st1⟩ := p
        obtain ⟨x2, t1, st2⟩ := q
        obtain ⟨hx, hst, its1, tws1, hg1, ht1, hc1, ht1e⟩ := hs
        subst hx
        subst hst
        subst hc1
        subst ht1e
        dsimp only
        exact ihEL x1 its1 tws1 st1 hg1 ht1
      · exact trivial
      · exact trivial
      · exact trivial
    have hExprLoop : ∀ x its tws st, parser.goodItems its = true →
        tws.all parser.isWs = true →
        parser.SimRes (parser.exprLoop (f + 1) x (parser.render its tws) st)
          (parser.tExprLoop (f + 1) x (its.map Prod.snd) st) := by
      intro x its tws st hg htws
      cases its with
      | nil =>
        rw [parser.exprLoop_nil (render_nil_dropWs htws)]
        exact ⟨rfl, rfl, [], tws, rfl, htws, rfl, rfl⟩
      | cons wt r =>
        obtain ⟨w, t⟩ := wt
        obtain ⟨hw, ht, hsep, hgr⟩ := goodItems_cons hg
        have hdw := renderDropWs tws hg
        cases t with
        | TPlus =>
          have hdw2 : (parser.render ((w, .TPlus) :: r) tws).dropWhile parser.isWs =
              '+' :: parser.render r tws := by
            simpa [parser.tokChars] using hdw
          rw [parser.exprLoop_plus hdw2]
          simp only [List.map_cons]
          rw [parser.tExprLoop_plus]
          have hs := ihT r tws st hgr htws
          revert hs
          rcases hcf : parser.term f (parser.render r tws) st with p | _ | _ | _ <;>
            rcases htf : parser.tTerm f (List.map Prod.snd r) st with q | _ | _ | _ <;>
              intro hs <;> try exact False.elim hs
          · obtain ⟨y1, c1, st1⟩ := p
            obtain ⟨y2, t1, st2⟩ := q
            obtain ⟨hy, hst, its1, tws1, hg1, ht1, hc1, ht1e⟩ := hs
            subst hy
            subst hst
            subst hc1
            subst ht1e
            dsimp only
            exact ihEL st1.length its1 tws1 (st1 ++ [⟨.BiOp .Add x y1⟩]) hg1 ht1
          · dsimp only
            exact ⟨rfl, rfl, (w, .TPlus) :: r, tws, hg, htws, rfl, rfl⟩
          · exact trivial
          · exact trivial
        | TMinus =>
          have hdw2 : (parser.render ((w, .TMinus) :: r) tws).dropWhile parser.isWs =
              '-' :: parser.render r tws := by
            simpa [parser.tokChars] using hdw
          rw [parser.exprLoop_minus hdw2]
          simp only [List.map_cons]
          rw [parser.tExprLoop_minus]
          have hs := ihT r tws st hgr htws
          revert hs
          rcases hcf : parser.term f (parser.render r tws) st with p | _ | _ | _ <;>
            rcases htf : parser.tTerm f (List.map Prod.snd r) st with q | _ | _ | _ <;>
              intro hs <;> try exact False.elim hs
          · obtain ⟨y1, c1, st1⟩ := p
            obtain ⟨y2, t1, st2⟩ := q
            obtain ⟨hy, hst, its1, tws1, hg1, ht1, hc1, ht1e⟩ := hs
            subst hy
            subst hst
            subst hc1
            subst ht1e
            dsimp only
            exact ihEL st1.length its1 tws1 (st1 ++ [⟨.BiOp .Sub x y1⟩]) hg1 ht1
          · dsimp only
            exact ⟨rfl, rfl, (w, .TMinus) :: r, tws, hg, htws, rfl, rfl⟩
          · exact trivial
          · exact trivial
        | TInt ds =>
          cases ds with
          | nil => simp [parser.goodTok] at ht
          | cons d ds2 =>
            have hd : parser.isDigit d = true := by
              simp only [parser.goodTok, Bool.and_eq_true, List.all_cons] at ht
              exact ht.2.1
            have hdw2 : (parser.render ((w, .TInt (d :: ds2)) :: r) tws).dropWhile
                parser.isWs = d :: (ds2 ++ parser.render r tws) := by
              simpa [parser.tokChars] using hdw
            rw [parser.exprLoop_stop hdw2 (digit_ne hd (by decide)) (digit_ne hd (by decide))]
            exact ⟨rfl, rfl, (w, .TInt (d :: ds2)) :: r, tws, hg, htws, rfl, rfl⟩
        | TStar =>
          have hdw2 : (parser.render ((w, .TStar) :: r) tws).dropWhile parser.isWs =
              '*' :: parser.render r tws := by
            simpa [parser.tokChars] using hdw
          rw [parser.exprLoop_stop hdw2 (by decide) (by decide)]
          exact ⟨rfl, rfl, (w, .TStar) :: r, tws, hg, htws, rfl, rfl⟩
        | TSlash =>
          have hdw2 : (parser.render ((w, .TSlash) :: r) tws).dropWhile parser.isWs =
              '/' :: parser.render r tws := by
            simpa [parser.tokChars] using hdw
          rw [parser.exprLoop_stop hdw2 (by decide) (by decide)]
          exact ⟨rfl, rfl, (w, .TSlash) :: r, tws, hg, htws, rfl, rfl⟩
        | TLP =>
          have hdw2 : (parser.render ((w, .TLP) :: r) tws).dropWhile parser.isWs =
              '(' :: parser.render r tws := by
            simpa [parser.tokChars] using hdw
          rw [parser.exprLoop_stop hdw2 (by decide) (by decide)]
          exact ⟨rfl, rfl, (w, .TLP) :: r, tws, hg, htws, rfl, rfl⟩
        | TRP =>
          have hdw2 : (parser.render ((w, .TRP) :: r) tws).dropWhile parser.isWs =
              ')' :: parser.render r tws := by
            simpa [parser.tokChars] using hdw
          rw [parser.exprLoop_stop hdw2 (by decide) (by decide)]
          exact ⟨rfl, rfl, (w, .TRP) :: r, tws, hg, htws, rfl, rfl⟩
    exact ⟨hFactor, hTerm, hTermLoop, hExpr, hExprLoop⟩
/-- The token-level parser is stable under extra fuel: once a rule
finishes without exhausting fuel, any larger fuel gives the same
result. -/
theorem parser.tmono :
    ∀ f f2 : Nat, f ≤ f2 →
    (∀ ts st, parser.tFactor f ts st ≠ .fuelOut →
      parser.tFactor f2 ts st = parser.tFactor f ts st) ∧
    (∀ ts st, parser.tTerm f ts st ≠ .fuelOut →
      parser.tTerm f2 ts st = parser.tTerm f ts st) ∧
    (∀ x ts st, parser.tTermLoop f x ts st ≠ .fuelOut →
      parser.tTermLoop f2 x ts st = parser.tTermLoop f x ts st) ∧
    (∀ ts st, parser.tExpr f ts st ≠ .fuelOut →
      parser.tExpr f2 ts st = parser.tExpr f ts st) ∧
    (∀ x ts st, parser.tExprLoop f x ts st ≠ .fuelOut →
      parser.tExprLoop f2 x ts st = parser.tExprLoop f x ts st) := by
  intro f
  induction f with
  | zero =>
    intro f2 _
    refine ⟨?_, ?_, ?_, ?_, ?_⟩ <;> intros <;> simp_all [parser.tFactor, parser.tTerm,
      parser.tTermLoop, parser.tExpr, parser.tExprLoop]
  | succ f ih =>
    intro f2 hf2
    match f2, hf2 with
    | f2+1, hf2 =>
      obtain ⟨ihF, ihT, ihTL, ihE, ihEL⟩ := ih f2 (Nat.succ_le_succ_iff.mp hf2)
      have hFactor : ∀ ts st, parser.tFactor (f + 1) ts st ≠ .fuelOut →
          parser.tFactor (f2 + 1) ts st = parser.tFactor (f + 1) ts st := by
        intro ts st hne
        cases ts with
        | nil => rfl
        | cons t r =>
          cases t with
          | TInt ds => rfl
          | TLP =>
            rw [parser.tFactor_lp, parser.tFactor_lp]
            rw [parser.tFactor_lp] at hne
            rcases hsub : parser.tExpr f r st with p | _ | _ | _
            · rw [ihE r st (by simp [hsub]), hsub]
            · rw [ihE r st (by simp [hsub]), hsub]
            · rw [ihE r st (by simp [hsub]), hsub]
            · rw [hsub] at hne
              exact absurd rfl hne
          | TPlus => rfl
          | TMinus => rfl
          | TStar => rfl
          | TSlash => rfl
          | TRP => rfl
      have hTerm : ∀ ts st, parser.tTerm (f + 1) ts st ≠ .fuelOut →
          parser.tTerm (f2 + 1) ts st = parser.tTerm (f + 1) ts st := by
        intro ts st hne
        rw [parser.tTerm, parser.tTerm]
        rw [parser.tTerm] at hne
        rcases hsub : parser.tFactor f ts st with p | _ | _ | _
        · obtain ⟨x, r, st1⟩ := p
          rw [ihF ts st (by simp [hsub]), hsub]
          exact ihTL x r st1 (by rw [hsub] at hne; exact hne)
        · rw [ihF ts st (by simp [hsub]), hsub]
        · rw [ihF ts st (by simp [hsub]), hsub]
        · rw [hsub] at hne
          exact absurd rfl hne
      have hTermLoop : ∀ x ts st, parser.tTermLoop (f + 1) x ts st ≠ .fuelOut →
          parser.tTermLoop (f2 + 1) x ts st = parser.tTermLoop (f + 1) x ts st := by
        intro x ts st hne
        cases ts with
        | nil => rfl
        | cons t r =>
          cases t with
          | TStar =>
            rw [parser.tTermLoop_star, parser.tTermLoop_star]
            rw [parser.tTermLoop_star] at hne
            rcases hsub : parser.tFactor f r st with p | _ | _ | _
            · obtain ⟨y, r1, st1⟩ := p
              rw [ihF r st (by simp [hsub]), hsub]
              exact ihTL st1.length r1 (st1 ++ [⟨.BiOp .Mul x y⟩])
                (by rw [hsub] at hne; exact hne)
            · rw [ihF r st (by simp [hsub]), hsub]
            · rw [ihF r st (by simp [hsub]), hsub]
            · rw [hsub] at hne
              exact absurd rfl hne
          | TSlash =>
            rw [parser.tTermLoop_slash, parser.tTermLoop_slash]
            rw [parser.tTermLoop_slash] at hne
            rcases hsub : parser.tFactor f r st with p | _ | _ | _
            · obtain ⟨y, r1, st1⟩ := p
              rw [ihF r st (by simp [hsub]), hsub]
              exact ihTL st1.length r1 (st1 ++ [⟨.BiOp .Div x y⟩])
                (by rw [hsub] at hne; exact hne)
            · rw [ihF r st (by simp [hsub]), hsub]
            · rw [ihF r st (by simp [hsub]), hsub]
            · rw [hsub] at hne
              exact absurd rfl hne
          | TInt ds => rfl
          | TPlus => rfl
          | TMinus => rfl
          | TLP => rfl
          | TRP => rfl
      have hExpr : ∀ ts st, parser.tExpr (f + 1) ts st ≠ .fuelOut →
          parser.tExpr (f2 + 1) ts st = parser.tExpr (f + 1) ts st := by
        intro ts st hne
        rw [parser.tExpr, parser.tExpr]
        rw [parser.tExpr] at hne
        rcases hsub : parser.tTerm f ts st with p | _ | _ | _
        · obtain ⟨x, r, st1⟩ := p
          rw [ihT ts st (by simp [hsub]), hsub]
          exact ihEL x r st1 (by rw [hsub] at hne; exact hne)
        · rw [ihT ts st (by simp [hsub]), hsub]
        · rw [ihT ts st (by simp [hsub]), hsub]
        · rw [hsub] at hne
          exact absurd rfl hne
      have hExprLoop : ∀ x ts st, parser.tExprLoop (f + 1) x ts st ≠ .fuelOut →
          parser.tExprLoop (f2 + 1) x ts st = parser.tExprLoop (f + 1) x ts st := by
        intro x ts st hne
        cases ts with
        | nil => rfl
        | cons t r =>
          cases t with
          | TPlus =>
            rw [parser.tExprLoop_plus, parser.tExprLoop_plus]
            rw [parser.tExprLoop_plus] at hne
            rcases hsub : parser.tTerm f r st with p | _ | _ | _
            · obtain ⟨y, r1, st1⟩ := p
              rw [ihT r st (by simp [hsub]), hsub]
              exact ihEL st1.length r1 (st1 ++ [⟨.BiOp .Add x y⟩])
                (by rw [hsub] at hne; exact hne)
            · rw [ihT r st (by simp [hsub]), hsub]
            · rw [ihT r st (by simp [hsub]), hsub]
            · rw [hsub] at hne
              exact absurd rfl hne
          | TMinus =>
            rw [parser.tExprLoop_minus, parser.tExprLoop_minus]
            rw [parser.tExprLoop_minus] at hne
            rcases hsub : parser.tTerm f r st with p | _ | _ | _
            · obtain ⟨y, r1, st1⟩ := p
              rw [ihT r st (by simp [hsub]), hsub]
              exact ihEL st1.length r1 (st1 ++ [⟨.BiOp .Sub x y⟩])
                (by rw [hsub] at hne; exact hne)
            · rw [ihT r st (by simp [hsub]), hsub]
            · rw [ihT r st (by simp [hsub]), hsub]
            · rw [hsub] at hne
              exact absurd rfl hne
          | TInt ds => rfl
          | TStar => rfl
          | TSlash => rfl
          | TLP => rfl
          | TRP => rfl
      exact ⟨hFactor, hTerm, hTermLoop, hExpr, hExprLoop⟩
theorem simres_ok_left {p : ast.Id × List Char × ast.Arena} {rt : parser.TokRes}
    (h : parser.SimRes (.ok p) rt) : ∃ q, rt = .ok q := by
  rcases rt with q | _ | _ | _
  · exact ⟨q, rfl⟩
  · exact False.elim h
  · exact False.elim h
  · exact False.elim h

theorem simres_fail_left {rt : parser.TokRes} (h : parser.SimRes .fail rt) :
    rt = .fail := by
  rcases rt with q | _ | _ | _
  · exact False.elim h
  · rfl
  · exact False.elim h
  · exact False.elim h

theorem simres_panic_left {rt : parser.TokRes} (h : parser.SimRes .panic rt) :
    rt = .panic := by
  rcases rt with q | _ | _ | _
  · exact False.elim h
  · exact False.elim h
  · rfl
  · exact False.elim h

theorem simres_not_fuelOut {rc : parser.RuleRes} {rt : parser.TokRes}
    (h : parser.SimRes rc rt) (hc : rc ≠ .fuelOut) : rt ≠ .fuelOut := by
  intro he
  subst he
  rcases rc with p | _ | _ | _
  · exact False.elim h
  · exact False.elim h
  · exact False.elim h
  · exact hc rfl

theorem renderDropWs_nil_iff {its : List (List Char × parser.Tok)} {tws : List Char}
    (hg : parser.goodItems its = true) (htws : tws.all parser.isWs = true) :
    ((parser.render its tws).dropWhile parser.isWs = [] ↔ its = []) := by
  cases its with
  | nil => simp [render_nil_dropWs htws]
  | cons wt r =>
    obtain ⟨w, t⟩ := wt
    rw [renderDropWs tws hg]
    obtain ⟨c, cs, hc, _⟩ := tokChars_cons (goodItems_cons hg).2.1
    rw [hc]
    simp

/-- C6 amended: whitespace is insignificant as long as the token sequence
is preserved: any two writings of the same token sequence, with arbitrary
whitespace before each token and after the last one (nonempty between two
adjacent integer literals, which merging would fuse into one token),
parse to identical results. -/
theorem claim_c6 :
    ∀ (items1 items2 : List (List Char × parser.Tok)) (tws1 tws2 : List Char),
      parser.goodItems items1 = true → tws1.all parser.isWs = true →
      parser.goodItems items2 = true → tws2.all parser.isWs = true →
      items1.map Prod.snd = items2.map Prod.snd →
      parser.parseList (parser.render items1 tws1) =
        parser.parseList (parser.render items2 tws2) := by
  intro items1 items2 tws1 tws2 hg1 ht1 hg2 ht2 htok
  have hs1 := (parser.sim (parser.fuelFor (parser.render items1 tws1))).2.2.2.1
    items1 tws1 [] hg1 ht1
  have hs2 := (parser.sim (parser.fuelFor (parser.render items2 tws2))).2.2.2.1
    items2 tws2 [] hg2 ht2
  rw [htok] at hs1
  have hnf1 := (parser.no_fuelOut (parser.fuelFor (parser.render items1 tws1))).2.2.2.1
    (parser.render items1 tws1) [] (by simp only [parser.fuelFor]; omega)
  have hnf2 := (parser.no_fuelOut (parser.fuelFor (parser.render items2 tws2))).2.2.2.1
    (parser.render items2 tws2) [] (by simp only [parser.fuelFor]; omega)
  have htnf1 := simres_not_fuelOut hs1 hnf1
  have htnf2 := simres_not_fuelOut hs2 hnf2
  have h12 : parser.tExpr (parser.fuelFor (parser.render items1 tws1))
        (items2.map Prod.snd) [] =
      parser.tExpr (parser.fuelFor (parser.render items2 tws2))
        (items2.map Prod.snd) [] := by
    have hm1 := (parser.tmono (parser.fuelFor (parser.render items1 tws1))
      (max (parser.fuelFor (parser.render items1 tws1))
        (parser.fuelFor (parser.render items2 tws2)))
      (le_max_left _ _)).2.2.2.1 (items2.map Prod.snd) [] htnf1
    have hm2 := (parser.tmono (parser.fuelFor (parser.render items2 tws2))
      (max (parser.fuelFor (parser.render items1 tws1))
        (parser.fuelFor (parser.render items2 tws2)))
      (le_max_right _ _)).2.2.2.1 (items2.map Prod.snd) [] htnf2
    rw [← hm1, ← hm2]
  rw [parser.parseList, parser.parseList]
  revert hs1 hs2 hnf1 hnf2
  rcases he1 : parser.expr (parser.fuelFor (parser.render items1 tws1))
      (parser.render items1 tws1) [] with p1 | _ | _ | _ <;>
    rcases he2 : parser.expr (parser.fuelFor (parser.render items2 tws2))
        (parser.render items2 tws2) [] with p2 | _ | _ | _ <;>
      intro hs1 hs2 hnf1 hnf2
  · -- ok, ok
    obtain ⟨i1, c1, s1⟩ := p1
    obtain ⟨i2, c2, s2⟩ := p2
    obtain ⟨q1, hq1⟩ := simres_ok_left hs1
    obtain ⟨q2, hq2⟩ := simres_ok_left hs2
    rw [hq1] at hs1
    rw [hq2] at hs2
    rw [hq1, hq2] at h12
    obtain ⟨i1q, t1q, s1q⟩ := q1
    obtain ⟨i2q, t2q, s2q⟩ := q2
    simp only [parser.PRes.ok.injEq, Prod.mk.injEq] at h12
    obtain ⟨hiq, htq, hsq⟩ := h12
    subst hiq
    subst htq
    subst hsq
    obtain ⟨hi1, hst1, its1b, tws1b, hg1b, ht1b, hc1b, hte1b⟩ := hs1
    obtain ⟨hi2, hst2, its2b, tws2b, hg2b, ht2b, hc2b, hte2b⟩ := hs2
    subst hi1
    subst hst1
    subst hc1b
    subst hi2
    subst hst2
    subst hc2b
    dsimp only
    simp only [renderDropWs_nil_iff hg1b ht1b, renderDropWs_nil_iff hg2b ht2b]
    by_cases hn : its1b = []
    · have hn2 : its2b = [] := by
        have hmm : its1b.map Prod.snd = its2b.map Prod.snd := by
          rw [← hte1b, ← hte2b]
        rw [hn] at hmm
        exact List.map_eq_nil_iff.mp hmm.symm
      rw [if_pos hn, if_pos hn2]
    · have hn2 : its2b ≠ [] := by
        intro hx
        have hmm : its1b.map Prod.snd = its2b.map Prod.snd := by
          rw [← hte1b, ← hte2b]
        rw [hx] at hmm
        exact hn (List.map_eq_nil_iff.mp hmm)
      rw [if_neg hn, if_neg hn2]
  · -- ok, fail
    obtain ⟨q1, hq1⟩ := simres_ok_left hs1
    rw [hq1, simres_fail_left hs2] at h12
    simp at h12
  · -- ok, panic
    obtain ⟨q1, hq1⟩ := simres_ok_left hs1
    rw [hq1, simres_panic_left hs2] at h12
    simp at h12
  · exact absurd rfl hnf2
  · -- fail, ok
    obtain ⟨q2, hq2⟩ := simres_ok_left hs2
    rw [hq2, simres_fail_left hs1] at h12
    simp at h12
  · rfl
  · -- fail, panic
    rw [simres_fail_left hs1, simres_panic_left hs2] at h12
    simp at h12
  · exact absurd rfl hnf2
  · -- panic, ok
    obtain ⟨q2, hq2⟩ := simres_ok_left hs2
    rw [hq2, simres_panic_left hs1] at h12
    simp at h12
  · -- panic, fail
    rw [simres_panic_left hs1, simres_fail_left hs2] at h12
    simp at h12
  · rfl
  · exact absurd rfl hnf2
  · exact absurd rfl hnf1
  · exact absurd rfl hnf1
  · exact absurd rfl hnf1
  · exact absurd rfl hnf1

/-- C6 witness: two renderings of the single token 1, whitespace moved
from back to front, parse identically. -/
theorem claim_c6_witness :
    parser.parseList (parser.render [([], .TInt ['1'])] [' ']) =
      parser.parseList (parser.render [([' '], .TInt ['1'])] []) :=
  claim_c6 [([], .TInt ['1'])] [([' '], .TInt ['1'])] [' '] [] (by decide) (by decide)
    (by decide) (by decide) rfl

end Bonsai
